import Mathlib

/-!
Shallow embedding of the block-template assembly core of `src/miner.cpp`
(hybrid PoW/PoS node, Bitcoin-derived).  Pure C++ functions become Lean
functions; the stateful selection loop of `BlockAssembler::addPackageTxs`
becomes a fueled step function on an explicit state record.  The mempool
is an external collaborator and is modelled as an ordered list of entries
(the order is the mempool's ancestor-score index iteration order) together
with a well-formedness predicate tying the per-entry cached ancestor
aggregates to the ancestor sets.
-/

/-- Modelled from the spec: `WITNESS_SCALE_FACTOR` (consensus/consensus.h is not
among the sources); the standard Bitcoin-derived value. -/
def WITNESS_SCALE_FACTOR : Nat := 4

/-- Modelled from the spec: `MAX_BLOCK_WEIGHT` (consensus/consensus.h is not
among the sources); the standard Bitcoin-derived value. -/
def MAX_BLOCK_WEIGHT : Nat := 4000000

/-- Modelled from the spec: `MAX_BLOCK_SIGOPS_COST` (consensus/consensus.h is
not among the sources); the standard Bitcoin-derived value. -/
def MAX_BLOCK_SIGOPS_COST : Nat := 80000

/-- Modelled from the spec: `DEFAULT_BLOCK_MAX_WEIGHT` (validation.h is not
among the sources); the standard Bitcoin-derived value. -/
def DEFAULT_BLOCK_MAX_WEIGHT : Nat := 3996000

/-- Modelled from the spec: `DEFAULT_BLOCK_MIN_TX_FEE` (validation.h is not
among the sources); the standard Bitcoin-derived value. -/
def DEFAULT_BLOCK_MIN_TX_FEE : Int := 1000

/-- `MAX_CONSECUTIVE_FAILURES` from `BlockAssembler::addPackageTxs`. -/
def MAX_CONSECUTIVE_FAILURES : Nat := 1000

/-- One mempool entry (`CTxMemPoolEntry`), as seen through the interfaces the
miner uses: identity, the outpoints its transaction spends, the cached sizes
and the cached with-ancestor aggregates maintained by the mempool. -/
structure MemEntry where
  txid : Nat
  inputs : List Nat
  txSize : Nat
  txWeight : Nat
  fee : Int
  modFee : Int
  sigOpCost : Nat
  nTime : Nat
  nLockTime : Nat
  seqFinal : Bool
  hasWitness : Bool
  anc : List Nat
  sizeWithAncestors : Nat
  modFeesWithAncestors : Int
  sigOpCostWithAncestors : Nat
  countWithAncestors : Nat
deriving Repr, DecidableEq

/-- The mempool, exposed to the assembler as its ancestor-score index:
`entries` is the iteration order of `mapTx.get<ancestor_score>()`. -/
structure Mempool where
  entries : List MemEntry
deriving Repr, DecidableEq

def Mempool.find (m : Mempool) (id : Nat) : Option MemEntry :=
  m.entries.find? (fun e => e.txid == id)

/-- `CTxMemPool::CalculateMemPoolAncestors` with unlimited limits: the set of
in-mempool ancestors of an entry. -/
def CalculateMemPoolAncestors (m : Mempool) (e : MemEntry) : List MemEntry :=
  e.anc.filterMap m.find

/-- `CTxMemPool::CalculateDescendants`: the in-mempool descendants of an
entry, the entry itself included. -/
def CalculateDescendants (m : Mempool) (it : MemEntry) : List MemEntry :=
  m.entries.filter (fun d => d.txid == it.txid || d.anc.contains it.txid)

def hasId (l : List MemEntry) (id : Nat) : Bool :=
  l.any (fun e => e.txid == id)

/-- Mempool well-formedness: what the mempool data structure (an external
collaborator of the miner) guarantees about its cached ancestor state. -/
structure Mempool.WF (m : Mempool) : Prop where
  nodup : (m.entries.map MemEntry.txid).Nodup
  ancNodup : ∀ e ∈ m.entries, e.anc.Nodup
  ancMem : ∀ e ∈ m.entries, ∀ a ∈ e.anc, ∃ e2 ∈ m.entries, e2.txid = a
  ancIrrefl : ∀ e ∈ m.entries, e.txid ∉ e.anc
  ancClosed : ∀ e ∈ m.entries, ∀ e2 ∈ m.entries, e2.txid ∈ e.anc → ∀ a ∈ e2.anc, a ∈ e.anc
  inputsSub : ∀ e ∈ m.entries, ∀ e2 ∈ m.entries, e2.txid ∈ e.inputs → e2.txid ∈ e.anc
  aggSize : ∀ e ∈ m.entries,
    e.sizeWithAncestors = e.txSize + ((CalculateMemPoolAncestors m e).map MemEntry.txSize).sum
  aggSig : ∀ e ∈ m.entries,
    e.sigOpCostWithAncestors = e.sigOpCost + ((CalculateMemPoolAncestors m e).map MemEntry.sigOpCost).sum
  aggCount : ∀ e ∈ m.entries, e.countWithAncestors = 1 + e.anc.length
  weightLe : ∀ e ∈ m.entries, e.txWeight ≤ WITNESS_SCALE_FACTOR * e.txSize

/-- `CTxMemPoolModifiedEntry`: an overlay record holding an entry together
with its residual with-ancestor aggregates.  The residuals are kept as `Int`;
the C++ unsigned counters never underflow on the states the assembler reaches
from a well-formed mempool. -/
structure ModEntry where
  entry : MemEntry
  nSizeWithAncestors : Int
  nModFeesWithAncestors : Int
  nSigOpCostWithAncestors : Int
deriving Repr, DecidableEq

/-- The `CTxMemPoolModifiedEntry(iter)` constructor: residuals initialized
from the entry's cached with-ancestor totals. -/
def CTxMemPoolModifiedEntry (e : MemEntry) : ModEntry :=
  { entry := e
    nSizeWithAncestors := (e.sizeWithAncestors : Int)
    nModFeesWithAncestors := e.modFeesWithAncestors
    nSigOpCostWithAncestors := (e.sigOpCostWithAncestors : Int) }

/-- Modelled from the spec: `CompareTxMemPoolEntryByAncestorFee` (declared in
txmempool.h, not among the sources): cross-multiplied integer comparison of
ancestor feerates, ties broken by handle identity.  `true` means the first
argument scores higher. -/
def CompareTxMemPoolEntryByAncestorFee (a b : ModEntry) : Bool :=
  let f1 : Int := a.nModFeesWithAncestors * b.nSizeWithAncestors
  let f2 : Int := b.nModFeesWithAncestors * a.nSizeWithAncestors
  if f1 = f2 then a.entry.txid < b.entry.txid else f1 > f2

def hasModId (l : List ModEntry) (id : Nat) : Bool :=
  l.any (fun me => me.entry.txid == id)

/-- `mapModifiedTx.get<ancestor_score>().begin()`: the best overlay entry. -/
def modBest (l : List ModEntry) : Option ModEntry :=
  l.foldl (fun acc x =>
    match acc with
    | none => some x
    | some y => if CompareTxMemPoolEntryByAncestorFee x y then some x else some y) none

/-- `mapModifiedTx.erase`. -/
def eraseMod (l : List ModEntry) (id : Nat) : List ModEntry :=
  l.filter (fun me => me.entry.txid ≠ id)

/-- `update_for_parent_inclusion`: subtract a newly included parent's own
size, modified fee and sigop cost from a descendant's residuals. -/
def update_for_parent_inclusion (it : MemEntry) (me : ModEntry) : ModEntry :=
  { me with
    nSizeWithAncestors := me.nSizeWithAncestors - (it.txSize : Int)
    nModFeesWithAncestors := me.nModFeesWithAncestors - it.modFee
    nSigOpCostWithAncestors := me.nSigOpCostWithAncestors - (it.sigOpCost : Int) }

/-- The per-descendant body of `BlockAssembler::UpdatePackagesForAdded`:
modify the tracked record, or insert a fresh one seeded from the cached
totals minus the parent's contributions. -/
def applyDesc (it : MemEntry) (mmt : List ModEntry) (desc : MemEntry) : List ModEntry :=
  if hasModId mmt desc.txid then
    mmt.map (fun me => if me.entry.txid = desc.txid then update_for_parent_inclusion it me else me)
  else
    update_for_parent_inclusion it (CTxMemPoolModifiedEntry desc) :: mmt

/-- `BlockAssembler::UpdatePackagesForAdded`: walk the descendants of every
newly added entry and update their overlay residuals. -/
def UpdatePackagesForAdded (m : Mempool) (alreadyAdded : List MemEntry)
    (mmt : List ModEntry) : List ModEntry :=
  alreadyAdded.foldl (fun acc it =>
    ((CalculateDescendants m it).filter (fun d => ¬ hasId alreadyAdded d.txid)).foldl
      (applyDesc it) acc) mmt

/-- Modelled from the spec: `CompareTxIterByAncestorCount` (declared in
miner.h, not among the sources): order packages by ancestor count ascending,
ties broken by handle identity. -/
def CompareTxIterByAncestorCount (a b : MemEntry) : Prop :=
  a.countWithAncestors < b.countWithAncestors ∨
    (a.countWithAncestors = b.countWithAncestors ∧ a.txid ≤ b.txid)

instance : DecidableRel CompareTxIterByAncestorCount := fun a b => by
  unfold CompareTxIterByAncestorCount; infer_instance

instance : IsTotal MemEntry CompareTxIterByAncestorCount where
  total a b := by
    unfold CompareTxIterByAncestorCount
    rcases Nat.lt_trichotomy a.countWithAncestors b.countWithAncestors with h | h | h
    · exact Or.inl (Or.inl h)
    · rcases Nat.le_total a.txid b.txid with h2 | h2
      · exact Or.inl (Or.inr ⟨h, h2⟩)
      · exact Or.inr (Or.inr ⟨h.symm, h2⟩)
    · exact Or.inr (Or.inl h)

instance : IsTrans MemEntry CompareTxIterByAncestorCount where
  trans a b c hab hbc := by
    unfold CompareTxIterByAncestorCount at *
    rcases hab with h1 | ⟨h1, h1t⟩
    · rcases hbc with h2 | ⟨h2, _⟩
      · exact Or.inl (h1.trans h2)
      · exact Or.inl (h2 ▸ h1)
    · rcases hbc with h2 | ⟨h2, h2t⟩
      · exact Or.inl (h1 ▸ h2)
      · exact Or.inr ⟨h1.trans h2, h1t.trans h2t⟩

/-- `BlockAssembler::SortForBlock`: sort a package by ancestor count
ascending (parents before children). -/
def SortForBlock (package : List MemEntry) : List MemEntry :=
  List.insertionSort CompareTxIterByAncestorCount package

/-- The per-call selection state of the assembler (`inBlock`, the running
counters seeded by `resetBlock`, the overlay `mapModifiedTx`, `failedTx`, the
consecutive-failure counter, and the not-yet-visited suffix of the mempool's
ancestor-score index).  `feesPushed`/`sigOpsPushed` are the entries appended
to `vTxFees`/`vTxSigOpsCost` by `AddToBlock` (slot 0 excluded). -/
structure SelState where
  rest : List MemEntry
  mapModifiedTx : List ModEntry
  failedTx : List Nat
  nConsecutiveFailed : Nat
  inBlockL : List MemEntry
  feesPushed : List Int
  sigOpsPushed : List Int
  nBlockWeight : Nat
  nBlockSigOpsCost : Nat
  nBlockTx : Nat
  nFees : Int
deriving Repr, DecidableEq

/-- The per-call configuration of the selection loop. -/
structure AsmParams where
  nBlockMaxWeight : Nat
  blockMinFeeRate : Int
  nHeight : Nat
  nLockTimeCutoff : Int
  fIncludeWitness : Bool
deriving Repr, DecidableEq

/-- Modelled from the spec: `CFeeRate::GetFee` (policy/feerate, not among the
sources): the fee threshold `min_fee_rate * package_size` with the rate in
units per kilo-size. -/
def CFeeRateGetFee (satPerK : Int) (size : Int) : Int :=
  satPerK * size / 1000

/-- `BlockAssembler::TestPackage`: would adding the package keep the block
strictly below the weight and sigops limits? -/
def TestPackage (p : AsmParams) (s : SelState) (packageSize packageSigOpsCost : Int) : Bool :=
  ((s.nBlockWeight : Int) + (WITNESS_SCALE_FACTOR : Int) * packageSize < (p.nBlockMaxWeight : Int))
    && ((s.nBlockSigOpsCost : Int) + packageSigOpsCost < (MAX_BLOCK_SIGOPS_COST : Int))

/-- Modelled from the spec: `IsFinalTx` (consensus/tx_verify, not among the
sources): lock-time finality of a transaction at a given height and cutoff
time. -/
def IsFinalTx (e : MemEntry) (nHeight : Nat) (cutoff : Int) : Bool :=
  e.nLockTime == 0
    || (if (e.nLockTime : Int) < 500000000 then (e.nLockTime : Int) < (nHeight : Int)
        else (e.nLockTime : Int) < cutoff)
    || e.seqFinal

/-- `BlockAssembler::TestPackageTransactions`: reject a package containing a
non-final transaction, or witness data before segwit activation. -/
def TestPackageTransactions (p : AsmParams) (package : List MemEntry) : Bool :=
  package.all (fun t => IsFinalTx t p.nHeight p.nLockTimeCutoff
    && (p.fIncludeWitness || !t.hasWitness))

/-- `BlockAssembler::onlyUnconfirmed`: drop the ancestors already in the
block. -/
def onlyUnconfirmed (inB : List MemEntry) (testSet : List MemEntry) : List MemEntry :=
  testSet.filter (fun t => ¬ hasId inB t.txid)

/-- `BlockAssembler::SkipMapTxEntry`. -/
def SkipMapTxEntry (s : SelState) (e : MemEntry) : Bool :=
  hasModId s.mapModifiedTx e.txid || hasId s.inBlockL e.txid || s.failedTx.contains e.txid

/-- `BlockAssembler::AddToBlock`: append the transaction and update the
running counters. -/
def AddToBlock (s : SelState) (e : MemEntry) : SelState :=
  { s with
    inBlockL := s.inBlockL ++ [e]
    feesPushed := s.feesPushed ++ [e.fee]
    sigOpsPushed := s.sigOpsPushed ++ [(e.sigOpCost : Int)]
    nBlockWeight := s.nBlockWeight + e.txWeight
    nBlockTx := s.nBlockTx + 1
    nBlockSigOpsCost := s.nBlockSigOpsCost + e.sigOpCost
    nFees := s.nFees + e.fee }

/-- Result of one iteration of the selection loop: `done` exits the loop
(exhaustion, the min-feerate early return, or the consecutive-failure
cutoff), `more` continues with the updated state. -/
inductive StepRes where
  | done (s : SelState)
  | more (s : SelState)
deriving Repr, DecidableEq

def StepRes.state : StepRes → SelState
  | .done s => s
  | .more s => s

/-- The failure bookkeeping shared by the budget and finality rejections: an
overlay-sourced candidate is erased from `mapModifiedTx` and recorded in
`failedTx`. -/
def markFailed (s : SelState) (iter : MemEntry) (fUsingModified : Bool) : SelState :=
  if fUsingModified then
    { s with mapModifiedTx := eraseMod s.mapModifiedTx iter.txid
             failedTx := iter.txid :: s.failedTx }
  else s

/-- One step of the package-commit loop: `AddToBlock` followed by
`mapModifiedTx.erase`. -/
def commitOne (st : SelState) (t : MemEntry) : SelState :=
  let st2 := AddToBlock st t
  { st2 with mapModifiedTx := eraseMod st2.mapModifiedTx t.txid }

/-- The package a candidate brings in: its not-yet-included in-mempool
ancestors together with the candidate itself. -/
def candidatePackage (m : Mempool) (s : SelState) (iter : MemEntry) : List MemEntry :=
  onlyUnconfirmed s.inBlockL (CalculateMemPoolAncestors m iter) ++ [iter]

/-- The body of the candidate evaluation shared by both sources (mapTx walk
and overlay), from the min-feerate early return to the package commit, in
`BlockAssembler::addPackageTxs`. -/
def evalCandidate (m : Mempool) (p : AsmParams) (iter : MemEntry) (fUsingModified : Bool)
    (packageSize packageFees packageSigOpsCost : Int) (s : SelState) : StepRes :=
  if packageFees < CFeeRateGetFee p.blockMinFeeRate packageSize then
    .done s
  else if ¬ TestPackage p s packageSize packageSigOpsCost then
    let s1 := markFailed s iter fUsingModified
    let s2 := { s1 with nConsecutiveFailed := s1.nConsecutiveFailed + 1 }
    if s2.nConsecutiveFailed > MAX_CONSECUTIVE_FAILURES
        && s2.nBlockWeight > p.nBlockMaxWeight - 4000 then
      .done s2
    else
      .more s2
  else
    let package := candidatePackage m s iter
    if ¬ TestPackageTransactions p package then
      .more (markFailed s iter fUsingModified)
    else
      let s1 := (SortForBlock package).foldl commitOne { s with nConsecutiveFailed := 0 }
      .more { s1 with mapModifiedTx := UpdatePackagesForAdded m package s1.mapModifiedTx }

/-- One iteration of the `while` loop of `BlockAssembler::addPackageTxs`:
candidate choice between the mempool's ancestor-score index and the overlay,
then evaluation. -/
def addPackageTxsStep (m : Mempool) (p : AsmParams) (s : SelState) : StepRes :=
  match s.rest with
  | [] =>
    match modBest s.mapModifiedTx with
    | none => .done s
    | some me =>
      evalCandidate m p me.entry true
        me.nSizeWithAncestors me.nModFeesWithAncestors me.nSigOpCostWithAncestors s
  | e :: tl =>
    if SkipMapTxEntry s e then
      .more { s with rest := tl }
    else
      match modBest s.mapModifiedTx with
      | some me =>
        if CompareTxMemPoolEntryByAncestorFee me (CTxMemPoolModifiedEntry e) then
          evalCandidate m p me.entry true
            me.nSizeWithAncestors me.nModFeesWithAncestors me.nSigOpCostWithAncestors s
        else
          evalCandidate m p e false
            (e.sizeWithAncestors : Int) e.modFeesWithAncestors (e.sigOpCostWithAncestors : Int)
            { s with rest := tl }
      | none =>
        evalCandidate m p e false
          (e.sizeWithAncestors : Int) e.modFeesWithAncestors (e.sigOpCostWithAncestors : Int)
          { s with rest := tl }

/-- The fueled selection loop. -/
def addPackageTxsGo (m : Mempool) (p : AsmParams) : Nat → SelState → SelState
  | 0, s => s
  | Nat.succ f, s =>
    match addPackageTxsStep m p s with
    | .done s1 => s1
    | .more s1 => addPackageTxsGo m p f s1

/-- The state after `resetBlock` (coinbase reservations of 4000 weight and
400 sigops) and the initial `UpdatePackagesForAdded(inBlock, mapModifiedTx)`
call of `addPackageTxs`. -/
def initSelState (m : Mempool) : SelState :=
  { rest := m.entries
    mapModifiedTx := UpdatePackagesForAdded m [] []
    failedTx := []
    nConsecutiveFailed := 0
    inBlockL := []
    feesPushed := []
    sigOpsPushed := []
    nBlockWeight := 4000
    nBlockSigOpsCost := 400
    nBlockTx := 0
    nFees := 0 }

/-- `BlockAssembler::addPackageTxs`, run with the given fuel. -/
def addPackageTxs (m : Mempool) (p : AsmParams) (fuel : Nat) : SelState :=
  addPackageTxsGo m p fuel (initSelState m)

/-- `BlockAssembler::Options`. -/
structure BlockAssemblerOptions where
  blockMinFeeRate : Int
  nBlockMaxWeight : Nat
deriving Repr, DecidableEq

/-- `BlockAssembler`: the per-instance configuration set by the constructor. -/
structure BlockAssembler where
  blockMinFeeRate : Int
  nBlockMaxWeight : Nat
deriving Repr, DecidableEq

/-- The `BlockAssembler` constructor: the requested max weight is clamped to
`[4000, MAX_BLOCK_WEIGHT - 4000]`. -/
def BlockAssembler.ofOptions (options : BlockAssemblerOptions) : BlockAssembler :=
  { blockMinFeeRate := options.blockMinFeeRate
    nBlockMaxWeight := max 4000 (min (MAX_BLOCK_WEIGHT - 4000) options.nBlockMaxWeight) }

/-- `DefaultOptions`: the configured `-blockmaxweight` (or
`DEFAULT_BLOCK_MAX_WEIGHT` when absent) and the parsed `-blockmintxfee` (or
`DEFAULT_BLOCK_MIN_TX_FEE` when absent or unparsable). -/
def DefaultOptions (blockmaxweightArg : Option Nat) (blockmintxfeeParsed : Option Int) :
    BlockAssemblerOptions :=
  { nBlockMaxWeight := blockmaxweightArg.getD DEFAULT_BLOCK_MAX_WEIGHT
    blockMinFeeRate := blockmintxfeeParsed.getD DEFAULT_BLOCK_MIN_TX_FEE }

/-- A transaction of the assembled template: the coinbase, the coinstake
(PoS), or a mempool transaction.  The coinbase and the coinstake are created
inside `CreateNewBlock`, so no pre-existing mempool transaction spends them,
and the coinstake spends only confirmed (non-mempool) outputs. -/
inductive TTx where
  | coinbase (nTime : Nat)
  | coinstake (nTime : Nat)
  | mem (e : MemEntry)
deriving Repr, DecidableEq

def TTx.nTime : TTx → Nat
  | .coinbase t => t
  | .coinstake t => t
  | .mem e => e.nTime

/-- Whether the first template transaction spends an output of the second.
The coinbase spends nothing; the coinstake spends confirmed outputs only; a
mempool transaction spends the outpoints in its input list, none of which can
be the freshly created coinbase or coinstake. -/
def TTx.spendsB : TTx → TTx → Bool
  | .mem a, .mem b => a.inputs.contains b.txid
  | _, _ => false

/-- `CBlockTemplate` together with the header fields the claims mention. -/
structure BlockTemplate where
  txs : List TTx
  vTxFees : List Int
  vTxSigOpsCost : List Int
  nTime : Int
  hashPrevBlock : Nat
  isProofOfStake : Bool
deriving Repr, DecidableEq

/-- `GetMaxTransactionTime`: the maximum transaction timestamp in a block. -/
def GetMaxTransactionTime (txs : List TTx) : Int :=
  txs.foldl (fun acc t => max acc (t.nTime : Int)) 0

/-- `UpdateTime`: raise the header time to
`max(median_time_past(prev)+1, adjusted_time)` if below it (the difficulty
retargeting side effect is outside the model). -/
def UpdateTime (oldTime mtp adjustedTime : Int) : Int :=
  let nNewTime := max (mtp + 1) adjustedTime
  if oldTime < nNewTime then nNewTime else oldTime

/-- The process-wide coinstake-search bookkeeping:
`nLastCoinStakeSearchInterval` and the function-static
`nLastCoinStakeSearchTime` of `CreateNewBlock`. -/
structure SearchState where
  nLastCoinStakeSearchTime : Int
  nLastCoinStakeSearchInterval : Int
deriving Repr, DecidableEq

/-- The wallet interface the miner consumes: `CreateCoinStake` receives the
masked search time and either fails or returns the found coinstake's
timestamp. -/
structure WalletModel where
  createCoinStake : Nat → Option Nat

/-- The external chain and deployment state read during one
`CreateNewBlock` call. -/
structure Env where
  prevHeight : Nat
  medianTimePast : Int
  tipHash : Nat
  adjustedTime : Int
  txDefaultTime : Nat
  nStakeTimestampMask : Nat
  deploymentSegwitActive : Bool
  coinbaseLegacySigOps : Nat
  testBlockValidityOk : Bool

/-- The outcome of one `CreateNewBlock` call: the returned template (none on
the PoS-cancel path or when `TestBlockValidity` throws), the `*pfPoSCancel`
out-parameter, the updated coinstake-search bookkeeping, and the final
selection state (`m_last_block_weight` is its `nBlockWeight`). -/
structure CNBResult where
  template : Option BlockTemplate
  posCancel : Bool
  searchState : SearchState
  selState : Option SelState

/-- `txCoinStake.nTime &= ~nStakeTimestampMask` on the 32-bit transaction
time: clear the masked low bits of the current time. -/
def maskedCoinStakeTime (t mask : Nat) : Nat :=
  Nat.land t (2 ^ 32 - 1 - mask)

/-- `BlockAssembler::CreateNewBlock`.  `wallet = none` is the proof-of-work
path; with a wallet the PoS path searches for a coinstake and cancels (null
template, `posCancel = true`) when none is placed.  `pcIn` is the caller's
initial value of the `*pfPoSCancel` out-parameter (untouched on the PoW
path); `ss` is the process-wide search bookkeeping. -/
def CreateNewBlock (m : Mempool) (asm : BlockAssembler) (env : Env)
    (wallet : Option WalletModel) (ss : SearchState) (pcIn : Bool) (fuel : Nat) : CNBResult :=
  let p : AsmParams :=
    { nBlockMaxWeight := asm.nBlockMaxWeight
      blockMinFeeRate := asm.blockMinFeeRate
      nHeight := env.prevHeight + 1
      nLockTimeCutoff := env.medianTimePast
      fIncludeWitness := env.deploymentSegwitActive }
  match wallet with
  | some w =>
    let nSearchTime : Nat := maskedCoinStakeTime env.txDefaultTime env.nStakeTimestampMask
    let found : Option Nat :=
      if (nSearchTime : Int) > ss.nLastCoinStakeSearchTime then
        match w.createCoinStake nSearchTime with
        | some csTime => if (csTime : Int) ≥ env.medianTimePast + 1 then some csTime else none
        | none => none
      else none
    let ss1 : SearchState :=
      if (nSearchTime : Int) > ss.nLastCoinStakeSearchTime then
        { nLastCoinStakeSearchTime := (nSearchTime : Int)
          nLastCoinStakeSearchInterval := (nSearchTime : Int) - ss.nLastCoinStakeSearchTime }
      else ss
    match found with
    | none => { template := none, posCancel := true, searchState := ss1, selState := none }
    | some csTime =>
      let s := addPackageTxs m p fuel
      let txs : List TTx := TTx.coinbase csTime :: TTx.coinstake csTime :: s.inBlockL.map TTx.mem
      let t0 : Int := max (env.medianTimePast + 1) (GetMaxTransactionTime txs)
      { template := some
          { txs := txs
            vTxFees := (-s.nFees) :: s.feesPushed
            vTxSigOpsCost := ((WITNESS_SCALE_FACTOR : Int) * (env.coinbaseLegacySigOps : Int))
              :: s.sigOpsPushed
            nTime := t0
            hashPrevBlock := env.tipHash
            isProofOfStake := true }
        posCancel := false
        searchState := ss1
        selState := some s }
  | none =>
    let s := addPackageTxs m p fuel
    let txs : List TTx := TTx.coinbase env.txDefaultTime :: s.inBlockL.map TTx.mem
    let t0 : Int := max (env.medianTimePast + 1) (GetMaxTransactionTime txs)
    let nTime : Int := UpdateTime t0 env.medianTimePast env.adjustedTime
    if env.testBlockValidityOk then
      { template := some
          { txs := txs
            vTxFees := (-s.nFees) :: s.feesPushed
            vTxSigOpsCost := ((WITNESS_SCALE_FACTOR : Int) * (env.coinbaseLegacySigOps : Int))
              :: s.sigOpsPushed
            nTime := nTime
            hashPrevBlock := env.tipHash
            isProofOfStake := false }
        posCancel := pcIn
        searchState := ss
        selState := some s }
    else
      { template := none, posCancel := pcIn, searchState := ss, selState := some s }

/-- The outcome of `ProcessBlockFound`: the returned flag and whether the
block was handed to `ChainstateManager::ProcessNewBlock`. -/
structure PBFResult where
  ok : Bool
  handedToProcessNewBlock : Bool
deriving Repr, DecidableEq

/-- The external checks `ProcessBlockFound` consults: the proof-of-stake
kernel check, the current tip hash, and the chainstate manager's verdict. -/
structure PBFEnv where
  checkProofOfStakeOk : Bool
  tipHash : Nat
  processNewBlockOk : Bool
deriving Repr, DecidableEq

/-- `ProcessBlockFound` (miner.cpp): kernel check, then stale-tip check, then
hand-off to `ProcessNewBlock`. -/
def ProcessBlockFound (hashPrevBlock : Nat) (env : PBFEnv) : PBFResult :=
  if ¬ env.checkProofOfStakeOk then
    { ok := false, handedToProcessNewBlock := false }
  else if hashPrevBlock ≠ env.tipHash then
    { ok := false, handedToProcessNewBlock := false }
  else
    { ok := env.processNewBlockOk, handedToProcessNewBlock := true }

/-- The transactions a candidate would actually add to the block: itself plus
its not-yet-included in-mempool ancestors — and the sum of their sizes. -/
def remainSizeN (m : Mempool) (inB : List MemEntry) (e : MemEntry) : Nat :=
  e.txSize +
    (((CalculateMemPoolAncestors m e).filter (fun t => !(hasId inB t.txid))).map
      MemEntry.txSize).sum

/-- As `remainSizeN`, for sigop cost. -/
def remainSigN (m : Mempool) (inB : List MemEntry) (e : MemEntry) : Nat :=
  e.sigOpCost +
    (((CalculateMemPoolAncestors m e).filter (fun t => !(hasId inB t.txid))).map
      MemEntry.sigOpCost).sum

/-- Topological soundness of a transaction sequence: every in-mempool
ancestor of an element appears strictly before it (the selection loop only
ever commits a transaction together with all of its missing ancestors). -/
def TopoOrd (l : List MemEntry) : Prop :=
  ∀ i : Fin l.length, ∀ t ∈ (l.get i).anc, hasId (l.take i.val) t = true

/-- The contribution of the newly committed package to the residuals of a
descendant: the summed sizes of the package members that are its ancestors. -/
def subSizeI (P : List MemEntry) (e : MemEntry) : Int :=
  ((P.filter (fun it => e.anc.contains it.txid)).map (fun it => (it.txSize : Int))).sum

/-- As `subSizeI`, for sigop cost. -/
def subSigI (P : List MemEntry) (e : MemEntry) : Int :=
  ((P.filter (fun it => e.anc.contains it.txid)).map (fun it => (it.sigOpCost : Int))).sum

/-- The selection-loop invariant: the running weight and sigops counters are
within the limits, the block is topologically sound and duplicate-free, and
every overlay residual dominates what its package would still add. -/
structure SelInv (m : Mempool) (p : AsmParams) (s : SelState) : Prop where
  weightLe : s.nBlockWeight ≤ p.nBlockMaxWeight
  sigopsLe : s.nBlockSigOpsCost ≤ MAX_BLOCK_SIGOPS_COST
  restSub : ∀ e ∈ s.rest, e ∈ m.entries
  inBlockSub : ∀ e ∈ s.inBlockL, e ∈ m.entries
  inBlockNodup : (s.inBlockL.map MemEntry.txid).Nodup
  topo : TopoOrd s.inBlockL
  mmtMem : ∀ me ∈ s.mapModifiedTx, me.entry ∈ m.entries
  mmtNotIn : ∀ me ∈ s.mapModifiedTx, hasId s.inBlockL me.entry.txid = false
  mmtSize : ∀ me ∈ s.mapModifiedTx, (remainSizeN m s.inBlockL me.entry : Int) ≤ me.nSizeWithAncestors
  mmtSig : ∀ me ∈ s.mapModifiedTx, (remainSigN m s.inBlockL me.entry : Int) ≤ me.nSigOpCostWithAncestors

/-- Fixture: an independent mempool transaction. -/
def exA : MemEntry :=
  { txid := 1, inputs := [90], txSize := 250, txWeight := 1000, fee := 2500, modFee := 2500
    sigOpCost := 4, nTime := 50, nLockTime := 0, seqFinal := true, hasWitness := false
    anc := [], sizeWithAncestors := 250, modFeesWithAncestors := 2500
    sigOpCostWithAncestors := 4, countWithAncestors := 1 }

/-- Fixture: a mempool transaction spending an output of `exA`. -/
def exB : MemEntry :=
  { txid := 2, inputs := [1], txSize := 250, txWeight := 1000, fee := 1000, modFee := 1000
    sigOpCost := 4, nTime := 60, nLockTime := 0, seqFinal := true, hasWitness := false
    anc := [1], sizeWithAncestors := 500, modFeesWithAncestors := 3500
    sigOpCostWithAncestors := 8, countWithAncestors := 2 }

/-- Fixture: a two-transaction mempool (child listed first on the
ancestor-score index). -/
def exM : Mempool := ⟨[exB, exA]⟩

/-- Fixture: an assembler configured with an 8000-weight limit. -/
def exAsm : BlockAssembler :=
  BlockAssembler.ofOptions { blockMinFeeRate := 0, nBlockMaxWeight := 8000 }

/-- Fixture: chain and deployment state for one `CreateNewBlock` call. -/
def exEnv : Env :=
  { prevHeight := 9, medianTimePast := 100, tipHash := 42, adjustedTime := 120
    txDefaultTime := 115, nStakeTimestampMask := 15, deploymentSegwitActive := true
    coinbaseLegacySigOps := 0, testBlockValidityOk := true }

/-- Fixture: a wallet whose coinstake search succeeds at time 112. -/
def exWallet : WalletModel := ⟨fun _ => some 112⟩

/-- Fixture: a wallet whose `CreateCoinStake` always returns false. -/
def exWalletFail : WalletModel := ⟨fun _ => none⟩

/-- Fixture: the initial coinstake-search bookkeeping. -/
def exSS : SearchState := { nLastCoinStakeSearchTime := 0, nLastCoinStakeSearchInterval := 0 }

/-- Fixture: an oversized independent transaction (one of 1000) that always
fails the budget test against a 7999-weight limit. -/
def bigEntry (i : Nat) : MemEntry :=
  { txid := i + 1, inputs := [], txSize := 1000, txWeight := 4000, fee := 0, modFee := 0
    sigOpCost := 0, nTime := 0, nLockTime := 0, seqFinal := true, hasWitness := false
    anc := [], sizeWithAncestors := 1000, modFeesWithAncestors := 0
    sigOpCostWithAncestors := 0, countWithAncestors := 1 }

/-- Fixture: a small transaction that fits the remaining budget. -/
def smallE : MemEntry :=
  { txid := 7777, inputs := [], txSize := 1, txWeight := 4, fee := 0, modFee := 0
    sigOpCost := 0, nTime := 0, nLockTime := 0, seqFinal := true, hasWitness := false
    anc := [], sizeWithAncestors := 1, modFeesWithAncestors := 0
    sigOpCostWithAncestors := 0, countWithAncestors := 1 }

/-- Fixture: a mempool whose first 1000 index entries all fail the budget
test, followed by one that passes. -/
def cexM : Mempool := ⟨(List.range 1000).map bigEntry ++ [smallE]⟩

/-- Fixture: selection parameters with a 7999-weight limit, so that the
4000-weight coinbase reservation is already within 4000 of the cap. -/
def cexP : AsmParams :=
  { nBlockMaxWeight := 7999, blockMinFeeRate := 0, nHeight := 10, nLockTimeCutoff := 100
    fIncludeWitness := true }

/-- Fixture: a selection state that has already accumulated 1000 consecutive
budget rejections (the state the loop reaches after walking the 1000
oversized entries of `cexM`), with one further oversized candidate ahead. -/
def cexS : SelState :=
  { rest := [bigEntry 0]
    mapModifiedTx := []
    failedTx := []
    nConsecutiveFailed := 1000
    inBlockL := []
    feesPushed := []
    sigOpsPushed := []
    nBlockWeight := 4000
    nBlockSigOpsCost := 400
    nBlockTx := 0
    nFees := 0 }

/-! ### Generic preservation of state predicates by the selection loop -/

/-- A predicate that only constrains the block-side fields (`inBlockL`, the
pushed fee/sigop vectors, the counters) is insensitive to changes of `rest`,
`mapModifiedTx`, `failedTx` and the failure counter. -/
def FramePred (P : SelState → Prop) : Prop :=
  ∀ (s : SelState) (rest : List MemEntry) (mmt : List ModEntry) (failed : List Nat) (ncf : Nat),
    P s → P ⟨rest, mmt, failed, ncf, s.inBlockL, s.feesPushed, s.sigOpsPushed,
      s.nBlockWeight, s.nBlockSigOpsCost, s.nBlockTx, s.nFees⟩

theorem foldl_commitOne_pres {P : SelState → Prop}
    (hC : ∀ st t, P st → P (commitOne st t)) :
    ∀ (l : List MemEntry) (st : SelState), P st → P (l.foldl commitOne st) := by
  intro l
  induction l with
  | nil => intro st h; simpa using h
  | cons t tl ih => intro st h; exact ih _ (hC _ _ h)

theorem evalCandidate_state_pres {P : SelState → Prop} (hF : FramePred P)
    (hC : ∀ st t, P st → P (commitOne st t))
    (m : Mempool) (p : AsmParams) (iter : MemEntry) (b : Bool) (sz fe sg : Int)
    (s : SelState) (h : P s) : P (evalCandidate m p iter b sz fe sg s).state := by
  have hm : P (markFailed s iter b) := by
    unfold markFailed
    split
    · exact hF _ _ _ _ _ h
    · exact h
  unfold evalCandidate
  split
  · exact h
  · split
    · dsimp only
      split
      · exact hF _ _ _ _ _ hm
      · exact hF _ _ _ _ _ hm
    · dsimp only
      split
      · exact hm
      · exact hF _ _ _ _ _
          (foldl_commitOne_pres hC _ _ (hF _ _ _ _ _ h))

theorem addPackageTxsStep_state_pres {P : SelState → Prop} (hF : FramePred P)
    (hC : ∀ st t, P st → P (commitOne st t))
    (m : Mempool) (p : AsmParams) (s : SelState) (h : P s) :
    P (addPackageTxsStep m p s).state := by
  unfold addPackageTxsStep
  cases hr : s.rest with
  | nil =>
    cases modBest s.mapModifiedTx with
    | none => exact h
    | some me => exact evalCandidate_state_pres hF hC m p me.entry true _ _ _ s h
  | cons e tl =>
    by_cases hsk : SkipMapTxEntry s e
    · simp only [hsk, if_true]
      exact hF _ _ _ _ _ h
    · simp only [hsk, if_false]
      cases modBest s.mapModifiedTx with
      | none =>
        exact evalCandidate_state_pres hF hC m p e false _ _ _ _ (hF _ _ _ _ _ h)
      | some me =>
        by_cases hcmp : CompareTxMemPoolEntryByAncestorFee me (CTxMemPoolModifiedEntry e)
        · simp only [hcmp, if_true]
          exact evalCandidate_state_pres hF hC m p me.entry true _ _ _ s h
        · simp only [hcmp, if_false]
          exact evalCandidate_state_pres hF hC m p e false _ _ _ _ (hF _ _ _ _ _ h)

theorem addPackageTxsGo_pres {P : SelState → Prop} (hF : FramePred P)
    (hC : ∀ st t, P st → P (commitOne st t))
    (m : Mempool) (p : AsmParams) :
    ∀ (fuel : Nat) (s : SelState), P s → P (addPackageTxsGo m p fuel s) := by
  intro fuel
  induction fuel with
  | zero => intro s h; exact h
  | succ f ih =>
    intro s h
    have hstep := addPackageTxsStep_state_pres hF hC m p s h
    unfold addPackageTxsGo
    cases hs : addPackageTxsStep m p s with
    | done s1 => rw [hs] at hstep; exact hstep
    | more s1 => rw [hs] at hstep; exact ih s1 hstep

/-! ### Fee and length bookkeeping of the selection loop -/

theorem addPackageTxs_feesSum (m : Mempool) (p : AsmParams) (fuel : Nat) :
    (addPackageTxs m p fuel).feesPushed.sum = (addPackageTxs m p fuel).nFees := by
  have hF : FramePred (fun s => s.feesPushed.sum = s.nFees) := by
    intro s rest mmt failed ncf h; exact h
  have hC : ∀ st t, st.feesPushed.sum = st.nFees →
      (commitOne st t).feesPushed.sum = (commitOne st t).nFees := by
    intro st t h
    simp only [commitOne, AddToBlock, List.sum_append, List.sum_cons, List.sum_nil, h]
    ring
  exact addPackageTxsGo_pres hF hC m p fuel (initSelState m) (by simp [initSelState])

theorem addPackageTxs_lens (m : Mempool) (p : AsmParams) (fuel : Nat) :
    (addPackageTxs m p fuel).inBlockL.length = (addPackageTxs m p fuel).feesPushed.length ∧
    (addPackageTxs m p fuel).inBlockL.length = (addPackageTxs m p fuel).sigOpsPushed.length := by
  have hF : FramePred (fun s => s.inBlockL.length = s.feesPushed.length ∧
      s.inBlockL.length = s.sigOpsPushed.length) := by
    intro s rest mmt failed ncf h; exact h
  have hC : ∀ st t, (st.inBlockL.length = st.feesPushed.length ∧
      st.inBlockL.length = st.sigOpsPushed.length) →
      ((commitOne st t).inBlockL.length = (commitOne st t).feesPushed.length ∧
       (commitOne st t).inBlockL.length = (commitOne st t).sigOpsPushed.length) := by
    intro st t h
    simp only [commitOne, AddToBlock, List.length_append, List.length_cons, List.length_nil]
    omega
  exact addPackageTxsGo_pres hF hC m p fuel (initSelState m) (by simp [initSelState])

/-- C3: for every template returned by `CreateNewBlock` (PoW and PoS alike),
after the coinbase-fee back-fill `vTxFees[0] = -nFees` the first entry of the
fee vector is the negated sum of all later entries. -/
theorem C3_coinbase_fee_backfill (m : Mempool) (asm : BlockAssembler) (env : Env)
    (wallet : Option WalletModel) (ss : SearchState) (pcIn : Bool) (fuel : Nat)
    (T : BlockTemplate)
    (hT : (CreateNewBlock m asm env wallet ss pcIn fuel).template = some T) :
    T.vTxFees.head? = some (-(T.vTxFees.tail.sum)) := by
  have hsum := addPackageTxs_feesSum m
  unfold CreateNewBlock at hT
  cases wallet with
  | none =>
    dsimp only at hT
    split at hT
    · simp only [Option.some.injEq] at hT
      subst hT
      simp [hsum]
    · exact absurd hT (by simp)
  | some w =>
    dsimp only at hT
    split at hT
    · exact absurd hT (by simp)
    · simp only [Option.some.injEq] at hT
      subst hT
      simp [hsum]

/-- C3 witness: the fee back-fill identity on a concrete two-transaction
proof-of-work template. -/
theorem C3_coinbase_fee_backfill_witness :
    ∃ T, (CreateNewBlock exM exAsm exEnv none exSS false 10).template = some T ∧
      T.vTxFees.head? = some (-(T.vTxFees.tail.sum)) :=
  ⟨_, rfl, C3_coinbase_fee_backfill exM exAsm exEnv none exSS false 10 _ rfl⟩

/-- C4: on the PoS path, if the wallet's `CreateCoinStake` returns false then
`CreateNewBlock` returns no template and sets the `*pfPoSCancel`
out-parameter to true. -/
theorem C4_pos_cancel (m : Mempool) (asm : BlockAssembler) (env : Env) (w : WalletModel)
    (ss : SearchState) (pcIn : Bool) (fuel : Nat)
    (hcs : w.createCoinStake (maskedCoinStakeTime env.txDefaultTime env.nStakeTimestampMask)
      = none) :
    (CreateNewBlock m asm env (some w) ss pcIn fuel).template = none ∧
    (CreateNewBlock m asm env (some w) ss pcIn fuel).posCancel = true := by
  unfold CreateNewBlock
  dsimp only
  rw [hcs]
  split
  · exact ⟨rfl, rfl⟩
  · rename_i heq
    split at heq <;> exact Option.noConfusion heq

/-- C4 witness: the cancel outcome on a concrete wallet whose coinstake
search fails. -/
theorem C4_pos_cancel_witness :
    (CreateNewBlock exM exAsm exEnv (some exWalletFail) exSS false 10).template = none ∧
    (CreateNewBlock exM exAsm exEnv (some exWalletFail) exSS false 10).posCancel = true :=
  C4_pos_cancel exM exAsm exEnv exWalletFail exSS false 10 rfl

/-- C6: a PoS block whose `hashPrevBlock` is not the current tip hash is
rejected by `ProcessBlockFound` (returns false) and is never handed to
`ChainstateManager::ProcessNewBlock`. -/
theorem C6_stale_submission (hashPrevBlock : Nat) (env : PBFEnv)
    (hne : hashPrevBlock ≠ env.tipHash) :
    (ProcessBlockFound hashPrevBlock env).ok = false ∧
    (ProcessBlockFound hashPrevBlock env).handedToProcessNewBlock = false := by
  unfold ProcessBlockFound
  by_cases hc : env.checkProofOfStakeOk = true
  · rw [if_neg (not_not_intro hc), if_pos hne]
    exact ⟨rfl, rfl⟩
  · rw [if_pos hc]
    exact ⟨rfl, rfl⟩

/-- C6 witness: a concrete stale submission. -/
theorem C6_stale_submission_witness :
    (ProcessBlockFound 1 ⟨true, 2, true⟩).ok = false ∧
    (ProcessBlockFound 1 ⟨true, 2, true⟩).handedToProcessNewBlock = false :=
  C6_stale_submission 1 ⟨true, 2, true⟩ (by decide)

/-- C7 counterexample: a concrete PoS-cancel call that does mutate the
process-wide coinstake-search bookkeeping — `CreateNewBlock` returns no
template with `pos_cancel = true`, yet `nLastCoinStakeSearchTime` and
`nLastCoinStakeSearchInterval` both change. -/
theorem C7_counterexample :
    (CreateNewBlock exM exAsm exEnv (some exWalletFail) exSS false 10).template = none ∧
    (CreateNewBlock exM exAsm exEnv (some exWalletFail) exSS false 10).posCancel = true ∧
    (CreateNewBlock exM exAsm exEnv (some exWalletFail) exSS false 10).searchState ≠ exSS := by
  refine ⟨by decide, by decide, by decide⟩

/-- C7 (amended): the PoS-cancel path returns no template, and the only
module-level state it mutates is the coinstake-search bookkeeping: when the
masked search time exceeds the last search time the pair becomes
`(searchTime, searchTime - last)`, and otherwise it is left unchanged. -/
theorem C7_amended_cancel_state (m : Mempool) (asm : BlockAssembler) (env : Env)
    (w : WalletModel) (ss : SearchState) (pcIn : Bool) (fuel : Nat)
    (hc : (CreateNewBlock m asm env (some w) ss pcIn fuel).posCancel = true) :
    (CreateNewBlock m asm env (some w) ss pcIn fuel).template = none ∧
    (CreateNewBlock m asm env (some w) ss pcIn fuel).searchState =
      (if ((maskedCoinStakeTime env.txDefaultTime env.nStakeTimestampMask : Nat) : Int) >
          ss.nLastCoinStakeSearchTime then
        { nLastCoinStakeSearchTime :=
            ((maskedCoinStakeTime env.txDefaultTime env.nStakeTimestampMask : Nat) : Int)
          nLastCoinStakeSearchInterval :=
            ((maskedCoinStakeTime env.txDefaultTime env.nStakeTimestampMask : Nat) : Int)
              - ss.nLastCoinStakeSearchTime }
      else ss) := by
  unfold CreateNewBlock at *
  dsimp only at *
  split at hc
  · split <;> exact ⟨rfl, rfl⟩
  · exact absurd hc (by simp)

/-- C7 amended witness: the cancel-path state update at a concrete input. -/
theorem C7_amended_cancel_state_witness :
    (CreateNewBlock exM exAsm exEnv (some exWalletFail) exSS false 10).template = none ∧
    (CreateNewBlock exM exAsm exEnv (some exWalletFail) exSS false 10).searchState =
      (if ((maskedCoinStakeTime exEnv.txDefaultTime exEnv.nStakeTimestampMask : Nat) : Int) >
          exSS.nLastCoinStakeSearchTime then
        { nLastCoinStakeSearchTime :=
            ((maskedCoinStakeTime exEnv.txDefaultTime exEnv.nStakeTimestampMask : Nat) : Int)
          nLastCoinStakeSearchInterval :=
            ((maskedCoinStakeTime exEnv.txDefaultTime exEnv.nStakeTimestampMask : Nat) : Int)
              - exSS.nLastCoinStakeSearchTime }
      else exSS) :=
  C7_amended_cancel_state exM exAsm exEnv exWalletFail exSS false 10 rfl

/-- C8: the effective block-weight limit is the requested weight clamped into
`[4000, MAX_BLOCK_WEIGHT - 4000]` (below-range requests yield 4000,
above-range requests yield the cap, in-range requests pass unchanged), and
an absent `-blockmaxweight` defaults to `DEFAULT_BLOCK_MAX_WEIGHT` before the
clamp. -/
theorem C8_weight_clamp (options : BlockAssemblerOptions) :
    ((BlockAssembler.ofOptions options).nBlockMaxWeight =
      max 4000 (min (MAX_BLOCK_WEIGHT - 4000) options.nBlockMaxWeight)) ∧
    (options.nBlockMaxWeight < 4000 → (BlockAssembler.ofOptions options).nBlockMaxWeight = 4000) ∧
    (options.nBlockMaxWeight > MAX_BLOCK_WEIGHT - 4000 →
      (BlockAssembler.ofOptions options).nBlockMaxWeight = MAX_BLOCK_WEIGHT - 4000) ∧
    (4000 ≤ options.nBlockMaxWeight → options.nBlockMaxWeight ≤ MAX_BLOCK_WEIGHT - 4000 →
      (BlockAssembler.ofOptions options).nBlockMaxWeight = options.nBlockMaxWeight) ∧
    (∀ mf : Option Int, (DefaultOptions none mf).nBlockMaxWeight = DEFAULT_BLOCK_MAX_WEIGHT) := by
  unfold BlockAssembler.ofOptions DefaultOptions MAX_BLOCK_WEIGHT DEFAULT_BLOCK_MAX_WEIGHT
  refine ⟨rfl, ?_, ?_, ?_, fun mf => rfl⟩ <;> intros <;> simp <;> omega

/-- C8 witness: a below-range request is clamped to 4000, and the unset
default. -/
theorem C8_weight_clamp_witness :
    (BlockAssembler.ofOptions ⟨0, 100⟩).nBlockMaxWeight = 4000 ∧
    (DefaultOptions none none).nBlockMaxWeight = DEFAULT_BLOCK_MAX_WEIGHT :=
  ⟨(C8_weight_clamp ⟨0, 100⟩).2.1 (by decide), (C8_weight_clamp ⟨0, 100⟩).2.2.2.2 none⟩

/-- `UpdateTime` never lowers the header time. -/
theorem UpdateTime_ge (oldTime mtp adjustedTime : Int) :
    oldTime ≤ UpdateTime oldTime mtp adjustedTime := by
  unfold UpdateTime
  dsimp only
  split
  · omega
  · omega

/-- C9: every proof-of-work template's header time is at least
`max(median_time_past(prev)+1, max transaction time of the block)`; the
final `UpdateTime` only ever raises it. -/
theorem C9_pow_header_time (m : Mempool) (asm : BlockAssembler) (env : Env)
    (ss : SearchState) (pcIn : Bool) (fuel : Nat) (T : BlockTemplate)
    (hT : (CreateNewBlock m asm env none ss pcIn fuel).template = some T) :
    T.nTime ≥ max (env.medianTimePast + 1) (GetMaxTransactionTime T.txs) := by
  unfold CreateNewBlock at hT
  dsimp only at hT
  split at hT
  · simp only [Option.some.injEq] at hT
    subst hT
    exact le_trans (le_refl _) (UpdateTime_ge _ _ _)
  · exact absurd hT (by simp)

/-- C9 witness: the header-time bound on a concrete PoW template. -/
theorem C9_pow_header_time_witness :
    ∃ T, (CreateNewBlock exM exAsm exEnv none exSS false 10).template = some T ∧
      T.nTime ≥ max (exEnv.medianTimePast + 1) (GetMaxTransactionTime T.txs) :=
  ⟨_, rfl, C9_pow_header_time exM exAsm exEnv exSS false 10 _ rfl⟩

/-- C10: in a PoS template the coinstake at index 1 gets no fee or sigops
entry, so the transaction list is exactly one longer than each of the fee
and sigops vectors; in a PoW template the lengths agree. -/
theorem C10_pos_vector_misalignment (m : Mempool) (asm : BlockAssembler) (env : Env)
    (ss : SearchState) (pcIn : Bool) (fuel : Nat) :
    (∀ (w : WalletModel) (T : BlockTemplate),
      (CreateNewBlock m asm env (some w) ss pcIn fuel).template = some T →
        T.txs.length = T.vTxFees.length + 1 ∧
        T.txs.length = T.vTxSigOpsCost.length + 1) ∧
    (∀ T : BlockTemplate,
      (CreateNewBlock m asm env none ss pcIn fuel).template = some T →
        T.txs.length = T.vTxFees.length ∧
        T.txs.length = T.vTxSigOpsCost.length) := by
  have hlen := addPackageTxs_lens m
  constructor
  · intro w T hT
    unfold CreateNewBlock at hT
    dsimp only at hT
    split at hT
    · exact absurd hT (by simp)
    · simp only [Option.some.injEq] at hT
      subst hT
      simp only [List.length_cons, List.length_map]
      obtain ⟨h1, h2⟩ := hlen ⟨asm.nBlockMaxWeight, asm.blockMinFeeRate, env.prevHeight + 1, env.medianTimePast, env.deploymentSegwitActive⟩ fuel
      omega
  · intro T hT
    unfold CreateNewBlock at hT
    dsimp only at hT
    split at hT
    · simp only [Option.some.injEq] at hT
      subst hT
      simp only [List.length_cons, List.length_map]
      obtain ⟨h1, h2⟩ := hlen ⟨asm.nBlockMaxWeight, asm.blockMinFeeRate, env.prevHeight + 1, env.medianTimePast, env.deploymentSegwitActive⟩ fuel
      omega
    · exact absurd hT (by simp)

/-- C10 witness: the length mismatch on a concrete PoS template and the
agreement on a concrete PoW template. -/
theorem C10_pos_vector_misalignment_witness :
    (∃ T, (CreateNewBlock exM exAsm exEnv (some exWallet) exSS false 10).template = some T ∧
      T.txs.length = T.vTxFees.length + 1 ∧ T.txs.length = T.vTxSigOpsCost.length + 1) ∧
    (∃ T, (CreateNewBlock exM exAsm exEnv none exSS false 10).template = some T ∧
      T.txs.length = T.vTxFees.length ∧ T.txs.length = T.vTxSigOpsCost.length) :=
  ⟨⟨_, rfl, (C10_pos_vector_misalignment exM exAsm exEnv exSS false 10).1 exWallet _ rfl⟩,
   ⟨_, rfl, (C10_pos_vector_misalignment exM exAsm exEnv exSS false 10).2 _ rfl⟩⟩

set_option maxRecDepth 100000 in
/-- C5 counterexample: on a concrete mempool, after exactly 1000 consecutive
budget-test rejections while the running block weight (4000) is within 4000
of the 7999-weight cap, assembly does not halt — the selection loop goes on
to consider the next candidate and even commits it to the block. -/
theorem C5_counterexample :
    (addPackageTxs cexM cexP 1000).nConsecutiveFailed = 1000 ∧
    (addPackageTxs cexM cexP 1000).inBlockL = [] ∧
    (addPackageTxs cexM cexP 1000).nBlockWeight > cexP.nBlockMaxWeight - 4000 ∧
    (addPackageTxs cexM cexP 1001).inBlockL.map MemEntry.txid = [7777] := by
  decide

/-- C5 (amended): on a budget-test rejection, the selection loop of
`addPackageTxs` halts exactly when the consecutive-failure counter *exceeds*
1000 — that is, on the 1001st consecutive rejection — and the running block
weight is within 4000 of the cap; with only 1000 accumulated consecutive
rejections it continues to the next candidate. -/
theorem C5_amended_cutoff (m : Mempool) (p : AsmParams) (s : SelState) (e : MemEntry)
    (tl : List MemEntry)
    (hrest : s.rest = e :: tl)
    (hskip : SkipMapTxEntry s e = false)
    (hmb : modBest s.mapModifiedTx = none)
    (hfee : ¬(e.modFeesWithAncestors <
      CFeeRateGetFee p.blockMinFeeRate (e.sizeWithAncestors : Int)))
    (htest : TestPackage p s (e.sizeWithAncestors : Int) (e.sigOpCostWithAncestors : Int)
      = false) :
    addPackageTxsStep m p s =
      (if s.nConsecutiveFailed + 1 > MAX_CONSECUTIVE_FAILURES ∧
          s.nBlockWeight > p.nBlockMaxWeight - 4000 then
        StepRes.done { s with rest := tl, nConsecutiveFailed := s.nConsecutiveFailed + 1 }
      else
        StepRes.more { s with rest := tl, nConsecutiveFailed := s.nConsecutiveFailed + 1 }) := by
  have htest2 : TestPackage p { s with rest := tl } (e.sizeWithAncestors : Int)
      (e.sigOpCostWithAncestors : Int) = false := htest
  unfold addPackageTxsStep
  rw [hrest]
  dsimp only
  rw [if_neg (by simp [hskip]), hmb]
  dsimp only
  unfold evalCandidate
  rw [if_neg hfee, if_pos (by simp [htest2])]
  by_cases hc : s.nConsecutiveFailed + 1 > MAX_CONSECUTIVE_FAILURES ∧
      s.nBlockWeight > p.nBlockMaxWeight - 4000
  · rw [if_pos hc, if_pos (by simp only [markFailed, Bool.false_eq_true, if_false,
      decide_eq_true_eq, Bool.and_eq_true]; exact ⟨hc.1, hc.2⟩)]
    rfl
  · rw [if_neg hc, if_neg (by simp only [markFailed, Bool.false_eq_true, if_false,
      decide_eq_true_eq, Bool.and_eq_true]; exact fun h => hc ⟨h.1, h.2⟩)]
    rfl

/-- C5 amended witness: in the concrete state with 1000 accumulated
consecutive rejections, the 1001st rejection makes the loop halt. -/
theorem C5_amended_cutoff_witness :
    addPackageTxsStep cexM cexP cexS =
      (if cexS.nConsecutiveFailed + 1 > MAX_CONSECUTIVE_FAILURES ∧
          cexS.nBlockWeight > cexP.nBlockMaxWeight - 4000 then
        StepRes.done { cexS with rest := [], nConsecutiveFailed := cexS.nConsecutiveFailed + 1 }
      else
        StepRes.more { cexS with rest := [], nConsecutiveFailed := cexS.nConsecutiveFailed + 1 }) :=
  C5_amended_cutoff cexM cexP cexS (bigEntry 0) [] rfl (by decide) rfl (by decide) (by decide)

/-! ### Basic facts about entry lookup and ancestor lists -/

theorem hasId_iff (l : List MemEntry) (id : Nat) :
    hasId l id = true ↔ ∃ e ∈ l, e.txid = id := by
  simp [hasId, List.any_eq_true, beq_iff_eq]

theorem hasId_false_iff (l : List MemEntry) (id : Nat) :
    hasId l id = false ↔ ∀ e ∈ l, e.txid ≠ id := by
  rw [← Bool.not_eq_true, hasId_iff]
  simp

theorem hasId_append (l1 l2 : List MemEntry) (id : Nat) :
    hasId (l1 ++ l2) id = (hasId l1 id || hasId l2 id) := by
  simp [hasId, List.any_append]

theorem hasId_perm {l1 l2 : List MemEntry} (h : List.Perm l1 l2) (id : Nat) :
    hasId l1 id = hasId l2 id := by
  rcases hb : hasId l2 id with _ | _
  · rw [hasId_false_iff] at hb ⊢
    intro e he
    exact hb e (h.mem_iff.mp he)
  · rw [hasId_iff] at hb ⊢
    obtain ⟨e, he, hid⟩ := hb
    exact ⟨e, h.mem_iff.mpr he, hid⟩

theorem hasId_of_take {l : List MemEntry} {k : Nat} {id : Nat}
    (h : hasId (l.take k) id = true) : hasId l id = true := by
  rw [hasId_iff] at h ⊢
  obtain ⟨e, he, hid⟩ := h
  exact ⟨e, (l.take_sublist k).mem he, hid⟩

theorem find_mem {m : Mempool} {a : Nat} {e : MemEntry} (h : m.find a = some e) :
    e ∈ m.entries :=
  List.mem_of_find?_eq_some h

theorem find_id {m : Mempool} {a : Nat} {e : MemEntry} (h : m.find a = some e) :
    e.txid = a := by
  have := List.find?_some h
  simpa [beq_iff_eq] using this

theorem entries_id_inj {m : Mempool} (hWF : m.WF) {a b : MemEntry}
    (ha : a ∈ m.entries) (hb : b ∈ m.entries) (hid : a.txid = b.txid) : a = b := by
  have hinj := List.inj_on_of_nodup_map hWF.nodup
  exact hinj ha hb hid

theorem find_self {m : Mempool} (hWF : m.WF) {e : MemEntry} (he : e ∈ m.entries) :
    m.find e.txid = some e := by
  rcases hf : m.find e.txid with _ | e2
  · exfalso
    have := List.find?_eq_none.mp hf e he
    simp at this
  · have h1 := find_mem hf
    have h2 := find_id hf
    rw [entries_id_inj hWF h1 he h2]

theorem find_isSome_of_anc {m : Mempool} (hWF : m.WF) {e : MemEntry} (he : e ∈ m.entries)
    {a : Nat} (ha : a ∈ e.anc) : ∃ e2, m.find a = some e2 := by
  obtain ⟨e2, he2, hid⟩ := hWF.ancMem e he a ha
  exact ⟨e2, hid ▸ find_self hWF he2⟩

theorem ancEntries_mem {m : Mempool} {e t : MemEntry}
    (h : t ∈ CalculateMemPoolAncestors m e) : t ∈ m.entries ∧ t.txid ∈ e.anc := by
  unfold CalculateMemPoolAncestors at h
  rw [List.mem_filterMap] at h
  obtain ⟨a, ha, hf⟩ := h
  exact ⟨find_mem hf, (find_id hf) ▸ ha⟩

theorem ancEntries_ids_sublist (m : Mempool) (e : MemEntry) :
    ((CalculateMemPoolAncestors m e).map MemEntry.txid).Sublist e.anc := by
  unfold CalculateMemPoolAncestors
  induction e.anc with
  | nil => simp
  | cons a tl ih =>
    rcases hf : m.find a with _ | e2
    · simp only [List.filterMap_cons, hf]
      exact ih.cons a
    · simp only [List.filterMap_cons, hf, List.map_cons]
      rw [find_id hf]
      exact ih.cons₂ a

theorem ancEntries_ids_nodup {m : Mempool} (hWF : m.WF) {e : MemEntry} (he : e ∈ m.entries) :
    ((CalculateMemPoolAncestors m e).map MemEntry.txid).Nodup :=
  (hWF.ancNodup e he).sublist (ancEntries_ids_sublist m e)

theorem mem_ancEntries_of_anc {m : Mempool} (hWF : m.WF) {e t : MemEntry} (he : e ∈ m.entries)
    (ht : t ∈ m.entries) (ha : t.txid ∈ e.anc) : t ∈ CalculateMemPoolAncestors m e := by
  unfold CalculateMemPoolAncestors
  rw [List.mem_filterMap]
  exact ⟨t.txid, ha, find_self hWF ht⟩

theorem countWithAncestors_lt {m : Mempool} (hWF : m.WF) {a b : MemEntry}
    (ha : a ∈ m.entries) (hb : b ∈ m.entries) (hanc : b.txid ∈ a.anc) :
    b.countWithAncestors < a.countWithAncestors := by
  rw [hWF.aggCount a ha, hWF.aggCount b hb]
  have hsub : (b.txid :: b.anc) ⊆ a.anc := by
    intro x hx
    rcases hx with _ | hx
    · exact hanc
    · exact hWF.ancClosed a ha b hb hanc x (by assumption)
  have hnd : (b.txid :: b.anc).Nodup := by
    rw [List.nodup_cons]
    exact ⟨hWF.ancIrrefl b hb, hWF.ancNodup b hb⟩
  have := (hnd.subperm hsub).length_le
  simp at this
  omega

theorem nat_sublist_sum_le {l1 l2 : List Nat} (h : l1.Sublist l2) : l1.sum ≤ l2.sum := by
  induction h with
  | slnil => simp
  | cons a h ih => simp only [List.sum_cons]; omega
  | cons₂ a h ih => simp only [List.sum_cons]; omega

/-! ### Facts about the residual package sizes -/

theorem remainSizeN_congr (m : Mempool) {X Y : List MemEntry}
    (h : ∀ id, hasId X id = hasId Y id) (e : MemEntry) :
    remainSizeN m X e = remainSizeN m Y e := by
  unfold remainSizeN
  have hf : (CalculateMemPoolAncestors m e).filter (fun t => !(hasId X t.txid)) =
      (CalculateMemPoolAncestors m e).filter (fun t => !(hasId Y t.txid)) :=
    List.filter_congr (fun t _ => by rw [h t.txid])
  rw [hf]

theorem remainSigN_congr (m : Mempool) {X Y : List MemEntry}
    (h : ∀ id, hasId X id = hasId Y id) (e : MemEntry) :
    remainSigN m X e = remainSigN m Y e := by
  unfold remainSigN
  have hf : (CalculateMemPoolAncestors m e).filter (fun t => !(hasId X t.txid)) =
      (CalculateMemPoolAncestors m e).filter (fun t => !(hasId Y t.txid)) :=
    List.filter_congr (fun t _ => by rw [h t.txid])
  rw [hf]

theorem remainSizeN_le_total {m : Mempool} (hWF : m.WF) {e : MemEntry} (he : e ∈ m.entries)
    (X : List MemEntry) : remainSizeN m X e ≤ e.sizeWithAncestors := by
  rw [hWF.aggSize e he]
  unfold remainSizeN
  have hs : (((CalculateMemPoolAncestors m e).filter (fun t => !(hasId X t.txid))).map
      MemEntry.txSize).Sublist ((CalculateMemPoolAncestors m e).map MemEntry.txSize) :=
    (List.filter_sublist _).map _
  have := nat_sublist_sum_le hs
  omega

theorem remainSigN_le_total {m : Mempool} (hWF : m.WF) {e : MemEntry} (he : e ∈ m.entries)
    (X : List MemEntry) : remainSigN m X e ≤ e.sigOpCostWithAncestors := by
  rw [hWF.aggSig e he]
  unfold remainSigN
  have hs : (((CalculateMemPoolAncestors m e).filter (fun t => !(hasId X t.txid))).map
      MemEntry.sigOpCost).Sublist ((CalculateMemPoolAncestors m e).map MemEntry.sigOpCost) :=
    (List.filter_sublist _).map _
  have := nat_sublist_sum_le hs
  omega

/-- In a list with duplicate-free ids, filtering for the id of a member
yields exactly that member. -/
theorem filter_id_single {l : List MemEntry} (hnd : (l.map MemEntry.txid).Nodup)
    {x : MemEntry} (hx : x ∈ l) : l.filter (fun y => y.txid == x.txid) = [x] := by
  induction l with
  | nil => cases hx
  | cons h tl ih =>
    simp only [List.map_cons, List.nodup_cons] at hnd
    rcases List.mem_cons.mp hx with rfl | hxtl
    · simp only [List.filter_cons, beq_self_eq_true, if_true]
      have hnil : tl.filter (fun y => y.txid == x.txid) = [] := by
        rw [List.filter_eq_nil_iff]
        intro y hy
        simp only [beq_iff_eq]
        intro hid
        exact hnd.1 (hid ▸ List.mem_map_of_mem MemEntry.txid hy)
      rw [hnil]
    · have hne : ¬ ((h.txid == x.txid) = true) := by
        simp only [beq_iff_eq]
        intro hid
        exact hnd.1 (hid ▸ List.mem_map_of_mem MemEntry.txid hxtl)
      simp only [List.filter_cons, hne, if_false]
      exact ih hnd.2 hxtl

/-- The filter predicate for one further included entry splits as a Boolean
conjunction. -/
theorem hasId_snoc_pred (X : List MemEntry) (it t : MemEntry) :
    (!(hasId (X ++ [it]) t.txid)) = ((!(t.txid == it.txid)) && !(hasId X t.txid)) := by
  rw [hasId_append]
  have h1 : hasId [it] t.txid = (it.txid == t.txid) := by simp [hasId]
  rw [h1]
  have h2 : (it.txid == t.txid) = (t.txid == it.txid) := by
    cases hbe : (it.txid == t.txid) <;> cases hbe2 : (t.txid == it.txid)
    · rfl
    · exact absurd (beq_iff_eq.mp hbe2).symm (ne_of_beq_false hbe)
    · exact absurd (beq_iff_eq.mp hbe).symm (ne_of_beq_false hbe2)
    · rfl
  rw [h2]
  cases hA : hasId X t.txid <;> cases hB : (t.txid == it.txid) <;> simp

/-- Marking one further ancestor as included removes exactly its size from
the residual. -/
theorem remainSizeN_snoc {m : Mempool} (hWF : m.WF) {e it : MemEntry}
    (he : e ∈ m.entries) (hit : it ∈ m.entries) (hanc : it.txid ∈ e.anc)
    (X : List MemEntry) (hX : hasId X it.txid = false) :
    remainSizeN m (X ++ [it]) e + it.txSize = remainSizeN m X e := by
  unfold remainSizeN
  rw [List.filter_congr (fun t _ => hasId_snoc_pred X it t), ← List.filter_filter]
  have hperm := List.filter_append_perm (fun t => !(t.txid == it.txid))
    ((CalculateMemPoolAncestors m e).filter (fun t => !(hasId X t.txid)))
  have hsum2 := (hperm.map MemEntry.txSize).sum_eq
  simp only [List.map_append, List.sum_append] at hsum2
  have hsingle : ((CalculateMemPoolAncestors m e).filter (fun t => !(hasId X t.txid))).filter
      (fun t => !(!(t.txid == it.txid))) = [it] := by
    have hmem : it ∈ (CalculateMemPoolAncestors m e).filter (fun t => !(hasId X t.txid)) := by
      rw [List.mem_filter]
      refine ⟨mem_ancEntries_of_anc hWF he hit hanc, ?_⟩
      simp [hX]
    have hnd : (((CalculateMemPoolAncestors m e).filter
        (fun t => !(hasId X t.txid))).map MemEntry.txid).Nodup :=
      (ancEntries_ids_nodup hWF he).sublist ((List.filter_sublist _).map _)
    have hfs := filter_id_single hnd hmem
    rw [← hfs]
    exact List.filter_congr (fun t _ => by rw [Bool.not_not])
  rw [hsingle] at hsum2
  simp only [List.map_cons, List.map_nil, List.sum_cons, List.sum_nil] at hsum2
  omega

theorem remainSigN_snoc {m : Mempool} (hWF : m.WF) {e it : MemEntry}
    (he : e ∈ m.entries) (hit : it ∈ m.entries) (hanc : it.txid ∈ e.anc)
    (X : List MemEntry) (hX : hasId X it.txid = false) :
    remainSigN m (X ++ [it]) e + it.sigOpCost = remainSigN m X e := by
  unfold remainSigN
  rw [List.filter_congr (fun t _ => hasId_snoc_pred X it t), ← List.filter_filter]
  have hperm := List.filter_append_perm (fun t => !(t.txid == it.txid))
    ((CalculateMemPoolAncestors m e).filter (fun t => !(hasId X t.txid)))
  have hsum2 := (hperm.map MemEntry.sigOpCost).sum_eq
  simp only [List.map_append, List.sum_append] at hsum2
  have hsingle : ((CalculateMemPoolAncestors m e).filter (fun t => !(hasId X t.txid))).filter
      (fun t => !(!(t.txid == it.txid))) = [it] := by
    have hmem : it ∈ (CalculateMemPoolAncestors m e).filter (fun t => !(hasId X t.txid)) := by
      rw [List.mem_filter]
      refine ⟨mem_ancEntries_of_anc hWF he hit hanc, ?_⟩
      simp [hX]
    have hnd : (((CalculateMemPoolAncestors m e).filter
        (fun t => !(hasId X t.txid))).map MemEntry.txid).Nodup :=
      (ancEntries_ids_nodup hWF he).sublist ((List.filter_sublist _).map _)
    have hfs := filter_id_single hnd hmem
    rw [← hfs]
    exact List.filter_congr (fun t _ => by rw [Bool.not_not])
  rw [hsingle] at hsum2
  simp only [List.map_cons, List.map_nil, List.sum_cons, List.sum_nil] at hsum2
  omega

/-- Marking a non-ancestor as included leaves the residual unchanged. -/
theorem remainSizeN_snoc_eq (m : Mempool) {e it : MemEntry}
    (hanc : it.txid ∉ e.anc) (X : List MemEntry) :
    remainSizeN m (X ++ [it]) e = remainSizeN m X e := by
  unfold remainSizeN
  have hf : (CalculateMemPoolAncestors m e).filter (fun t => !(hasId (X ++ [it]) t.txid)) =
      (CalculateMemPoolAncestors m e).filter (fun t => !(hasId X t.txid)) := by
    apply List.filter_congr
    intro t ht
    rw [hasId_snoc_pred X it t]
    have hne : ¬ ((t.txid == it.txid) = true) := by
      simp only [beq_iff_eq]
      intro hid
      exact hanc (hid ▸ (ancEntries_mem ht).2)
    rw [Bool.eq_false_iff.mpr hne]
    simp
  rw [hf]

theorem remainSigN_snoc_eq (m : Mempool) {e it : MemEntry}
    (hanc : it.txid ∉ e.anc) (X : List MemEntry) :
    remainSigN m (X ++ [it]) e = remainSigN m X e := by
  unfold remainSigN
  have hf : (CalculateMemPoolAncestors m e).filter (fun t => !(hasId (X ++ [it]) t.txid)) =
      (CalculateMemPoolAncestors m e).filter (fun t => !(hasId X t.txid)) := by
    apply List.filter_congr
    intro t ht
    rw [hasId_snoc_pred X it t]
    have hne : ¬ ((t.txid == it.txid) = true) := by
      simp only [beq_iff_eq]
      intro hid
      exact hanc (hid ▸ (ancEntries_mem ht).2)
    rw [Bool.eq_false_iff.mpr hne]
    simp
  rw [hf]

/-! ### Facts about the candidate package and the commit loop -/

theorem onlyUnconfirmed_eq (inB l : List MemEntry) :
    onlyUnconfirmed inB l = l.filter (fun t => !(hasId inB t.txid)) := by
  unfold onlyUnconfirmed
  apply List.filter_congr
  intro t _
  cases h : hasId inB t.txid <;> simp [h]

theorem candidatePackage_mem {m : Mempool} {s : SelState} {iter t : MemEntry}
    (ht : t ∈ candidatePackage m s iter) :
    t = iter ∨ (t ∈ m.entries ∧ t.txid ∈ iter.anc ∧ hasId s.inBlockL t.txid = false) := by
  unfold candidatePackage at ht
  rw [onlyUnconfirmed_eq] at ht
  rcases List.mem_append.mp ht with h | h
  · rw [List.mem_filter] at h
    obtain ⟨hmem, hanc⟩ := ancEntries_mem h.1
    refine Or.inr ⟨hmem, hanc, ?_⟩
    have := h.2
    simpa using this
  · left
    simpa using h

theorem candidatePackage_sub {m : Mempool} {s : SelState} {iter : MemEntry}
    (hiter : iter ∈ m.entries) : ∀ t ∈ candidatePackage m s iter, t ∈ m.entries := by
  intro t ht
  rcases candidatePackage_mem ht with rfl | ⟨h, _, _⟩
  · exact hiter
  · exact h

theorem candidatePackage_notin {m : Mempool} {s : SelState} {iter : MemEntry}
    (hnotin : hasId s.inBlockL iter.txid = false) :
    ∀ t ∈ candidatePackage m s iter, hasId s.inBlockL t.txid = false := by
  intro t ht
  rcases candidatePackage_mem ht with rfl | ⟨_, _, h⟩
  · exact hnotin
  · exact h

theorem candidatePackage_ids_nodup {m : Mempool} (hWF : m.WF) {s : SelState} {iter : MemEntry}
    (hiter : iter ∈ m.entries) :
    ((candidatePackage m s iter).map MemEntry.txid).Nodup := by
  unfold candidatePackage
  rw [onlyUnconfirmed_eq, List.map_append]
  rw [List.nodup_append]
  refine ⟨(ancEntries_ids_nodup hWF hiter).sublist ((List.filter_sublist _).map _),
    List.nodup_singleton _, ?_⟩
  intro x hx
  simp only [List.map_cons, List.map_nil, List.mem_singleton]
  intro hxe
  rw [List.mem_map] at hx
  obtain ⟨t, ht, htx⟩ := hx
  rw [List.mem_filter] at ht
  have hanc := (ancEntries_mem ht.1).2
  rw [htx, hxe] at hanc
  exact hWF.ancIrrefl iter hiter hanc

theorem candidatePackage_size_sum (m : Mempool) (s : SelState) (iter : MemEntry) :
    ((candidatePackage m s iter).map MemEntry.txSize).sum = remainSizeN m s.inBlockL iter := by
  unfold candidatePackage remainSizeN
  rw [onlyUnconfirmed_eq, List.map_append, List.sum_append]
  simp [Nat.add_comm]

theorem candidatePackage_sig_sum (m : Mempool) (s : SelState) (iter : MemEntry) :
    ((candidatePackage m s iter).map MemEntry.sigOpCost).sum = remainSigN m s.inBlockL iter := by
  unfold candidatePackage remainSigN
  rw [onlyUnconfirmed_eq, List.map_append, List.sum_append]
  simp [Nat.add_comm]

/-- Every ancestor of a package member is either already in the block or in
the package itself. -/
theorem candidatePackage_closure {m : Mempool} (hWF : m.WF) {s : SelState} {iter : MemEntry}
    (hiter : iter ∈ m.entries) :
    ∀ a ∈ candidatePackage m s iter, ∀ t ∈ a.anc,
      hasId s.inBlockL t = true ∨ ∃ e2 ∈ candidatePackage m s iter, e2.txid = t := by
  intro a ha t ht
  have htanc : t ∈ iter.anc := by
    rcases candidatePackage_mem ha with rfl | ⟨hmem, hanc, _⟩
    · exact ht
    · exact hWF.ancClosed iter hiter a hmem hanc t ht
  cases hL : hasId s.inBlockL t
  · right
    obtain ⟨e2, hf⟩ := find_isSome_of_anc hWF hiter htanc
    have he2m := find_mem hf
    have he2id := find_id hf
    refine ⟨e2, ?_, he2id⟩
    unfold candidatePackage
    rw [onlyUnconfirmed_eq]
    apply List.mem_append.mpr
    left
    rw [List.mem_filter]
    refine ⟨mem_ancEntries_of_anc hWF hiter he2m (he2id ▸ htanc), ?_⟩
    rw [he2id, hL]
    rfl
  · exact Or.inl rfl

/-- The commit loop in closed form: fields of `foldl commitOne`. -/
theorem foldl_commitOne_fields (S : List MemEntry) (s : SelState) :
    (S.foldl commitOne s).inBlockL = s.inBlockL ++ S ∧
    (S.foldl commitOne s).feesPushed = s.feesPushed ++ S.map MemEntry.fee ∧
    (S.foldl commitOne s).sigOpsPushed
      = s.sigOpsPushed ++ S.map (fun t => (t.sigOpCost : Int)) ∧
    (S.foldl commitOne s).nBlockWeight = s.nBlockWeight + (S.map MemEntry.txWeight).sum ∧
    (S.foldl commitOne s).nBlockSigOpsCost
      = s.nBlockSigOpsCost + (S.map MemEntry.sigOpCost).sum ∧
    (S.foldl commitOne s).nBlockTx = s.nBlockTx + S.length ∧
    (S.foldl commitOne s).nFees = s.nFees + (S.map MemEntry.fee).sum ∧
    (S.foldl commitOne s).rest = s.rest ∧
    (S.foldl commitOne s).failedTx = s.failedTx ∧
    (S.foldl commitOne s).nConsecutiveFailed = s.nConsecutiveFailed ∧
    (S.foldl commitOne s).mapModifiedTx
      = s.mapModifiedTx.filter (fun me => !(hasId S me.entry.txid)) := by
  induction S generalizing s with
  | nil =>
    refine ⟨by simp, by simp, by simp, by simp, by simp, by simp, by simp, rfl, rfl, rfl, ?_⟩
    have : ∀ me ∈ s.mapModifiedTx, (!(hasId ([] : List MemEntry) me.entry.txid)) = true := by
      intro me _
      rfl
    simp [List.filter_eq_self.mpr this]
  | cons t tl ih =>
    obtain ⟨h1, h2, h3, h4, h5, h6, h7, h8, h9, h10, h11⟩ := ih (commitOne s t)
    rw [List.foldl_cons]
    refine ⟨?_, ?_, ?_, ?_, ?_, ?_, ?_, ?_, ?_, ?_, ?_⟩
    · rw [h1]; simp [commitOne, AddToBlock]
    · rw [h2]; simp [commitOne, AddToBlock]
    · rw [h3]; simp [commitOne, AddToBlock]
    · rw [h4]; simp [commitOne, AddToBlock]; omega
    · rw [h5]; simp [commitOne, AddToBlock]; omega
    · rw [h6]; simp [commitOne, AddToBlock]; omega
    · rw [h7]; simp [commitOne, AddToBlock]; ring
    · rw [h8]; rfl
    · rw [h9]; rfl
    · rw [h10]; rfl
    · rw [h11]
      show (eraseMod s.mapModifiedTx t.txid).filter _ = _
      unfold eraseMod
      rw [List.filter_filter]
      apply List.filter_congr
      intro me _
      have hcons : hasId (t :: tl) me.entry.txid
          = ((t.txid == me.entry.txid) || hasId tl me.entry.txid) := by
        simp [hasId]
      rw [hcons]
      cases h1 : (t.txid == me.entry.txid)
      · have hne : me.entry.txid ≠ t.txid := fun hx => (ne_of_beq_false h1) hx.symm
        rw [decide_eq_true hne]
        simp
      · have heq : me.entry.txid = t.txid := (beq_iff_eq.mp h1).symm
        rw [decide_eq_false (by simp [heq])]
        simp

/-! ### Topological order machinery -/

theorem TopoOrd_nil : TopoOrd [] := by
  intro i
  exact absurd i.isLt (by simp)

theorem TopoOrd_closure {l : List MemEntry} (hl : TopoOrd l) :
    ∀ e ∈ l, ∀ t ∈ e.anc, hasId l t = true := by
  intro e he t ht
  obtain ⟨i, hi⟩ := List.mem_iff_get.mp he
  exact hasId_of_take (hl i t (hi ▸ ht))

theorem TopoOrd_append {L S : List MemEntry} (hL : TopoOrd L)
    (hS : ∀ k : Fin S.length, ∀ t ∈ (S.get k).anc, hasId (L ++ S.take k.val) t = true) :
    TopoOrd (L ++ S) := by
  rintro ⟨iv, hiv⟩ t ht
  by_cases hi : iv < L.length
  · have hget : (L ++ S).get ⟨iv, hiv⟩ = L.get ⟨iv, hi⟩ := List.get_append iv hi
    have htake : (L ++ S).take iv = L.take iv := by
      rw [List.take_append_eq_append_take]
      have h0 : iv - L.length = 0 := by omega
      rw [h0]
      simp
    simp only [htake]
    exact hL ⟨iv, hi⟩ t (hget ▸ ht)
  · have hlen := hiv
    rw [List.length_append] at hlen
    have hk : iv - L.length < S.length := by omega
    have hge : L.length ≤ iv := by omega
    have hget : (L ++ S).get ⟨iv, hiv⟩ = S.get ⟨iv - L.length, hk⟩ :=
      List.get_append_right L S hge
    have htake : (L ++ S).take iv = L ++ S.take (iv - L.length) := by
      rw [List.take_append_eq_append_take, List.take_all_of_le (by omega)]
    simp only [htake]
    exact hS ⟨iv - L.length, hk⟩ t (hget ▸ ht)

theorem list_id_inj {l : List MemEntry} (hnd : (l.map MemEntry.txid).Nodup) {a b : MemEntry}
    (ha : a ∈ l) (hb : b ∈ l) (hid : a.txid = b.txid) : a = b :=
  List.inj_on_of_nodup_map hnd ha hb hid

theorem TopoOrd.not_anc_later {l : List MemEntry} (hl : TopoOrd l)
    (hnd : (l.map MemEntry.txid).Nodup) (i j : Fin l.length) (hij : i.val < j.val) :
    (l.get j).txid ∉ (l.get i).anc := by
  intro hmem
  have h1 := hl i (l.get j).txid hmem
  rw [hasId_iff] at h1
  obtain ⟨c, hc, hcid⟩ := h1
  have hcl : c ∈ l := (l.take_sublist i.val).mem hc
  have hceq : c = l.get j := list_id_inj hnd hcl (List.get_mem l j.val j.isLt) hcid
  obtain ⟨q, hq⟩ := List.mem_iff_get.mp hc
  have hqlt : q.val < i.val := by
    have := q.isLt
    simp only [List.length_take] at this
    omega
  have hql : q.val < l.length := by
    have := i.isLt
    omega
  have hgets : l.get ⟨q.val, hql⟩ = c := by
    rw [← hq]
    simp [List.get_eq_getElem, List.getElem_take]
  have hnd2 : l.Nodup := hnd.of_map
  have hfin := (hnd2.get_inj_iff).mp (hgets.trans hceq)
  have hvals : q.val = j.val := congrArg Fin.val hfin
  omega

/-! ### The sorted package respects ancestor order -/

theorem sorted_package_anc {m : Mempool} (hWF : m.WF) {s : SelState} {iter : MemEntry}
    (hiter : iter ∈ m.entries) :
    ∀ k : Fin (SortForBlock (candidatePackage m s iter)).length,
      ∀ t ∈ ((SortForBlock (candidatePackage m s iter)).get k).anc,
        hasId (s.inBlockL ++ (SortForBlock (candidatePackage m s iter)).take k.val) t
          = true := by
  intro k t ht
  have hperm : List.Perm (SortForBlock (candidatePackage m s iter))
      (candidatePackage m s iter) := List.perm_insertionSort _ _
  have hsorted : List.Pairwise CompareTxIterByAncestorCount
      (SortForBlock (candidatePackage m s iter)) := List.sorted_insertionSort _ _
  have ha : (SortForBlock (candidatePackage m s iter)).get k ∈ candidatePackage m s iter :=
    hperm.mem_iff.mp (List.get_mem _ k.val k.isLt)
  rw [hasId_append]
  cases hL : hasId s.inBlockL t
  · rcases candidatePackage_closure hWF hiter _ ha t ht with hc | ⟨e2, he2, he2id⟩
    · rw [hc] at hL
      cases hL
    · have he2S : e2 ∈ SortForBlock (candidatePackage m s iter) := hperm.mem_iff.mpr he2
      have he2m : e2 ∈ m.entries := candidatePackage_sub hiter e2 he2
      have ham : (SortForBlock (candidatePackage m s iter)).get k ∈ m.entries :=
        candidatePackage_sub hiter _ ha
      have hcount : e2.countWithAncestors
          < ((SortForBlock (candidatePackage m s iter)).get k).countWithAncestors :=
        countWithAncestors_lt hWF ham he2m (he2id ▸ ht)
      obtain ⟨q, hq⟩ := List.mem_iff_get.mp he2S
      have hqk : q.val < k.val := by
        rcases Nat.lt_trichotomy q.val k.val with h | h | h
        · exact h
        · exfalso
          have : e2 = (SortForBlock (candidatePackage m s iter)).get k := by
            rw [← hq]
            congr 1
            exact Fin.ext h
          rw [this] at hcount
          omega
        · exfalso
          have hrel := List.pairwise_iff_get.mp hsorted k q h
          rw [hq] at hrel
          rcases hrel with hlt | ⟨heq, _⟩
          · omega
          · omega
      have hmemtake : e2 ∈ (SortForBlock (candidatePackage m s iter)).take k.val := by
        rw [← hq]
        have hql : q.val < (SortForBlock (candidatePackage m s iter)).length := q.isLt
        have : ((SortForBlock (candidatePackage m s iter)).take k.val).get
            ⟨q.val, by simp [List.length_take]; omega⟩
            = (SortForBlock (candidatePackage m s iter)).get q := by
          simp [List.get_eq_getElem, List.getElem_take]
        rw [← this]
        exact List.get_mem _ _ _
      have : hasId ((SortForBlock (candidatePackage m s iter)).take k.val) t = true :=
        (hasId_iff _ _).mpr ⟨e2, hmemtake, he2id⟩
      rw [this]
      simp
  · simp

/-! ### The residual bound survives `UpdatePackagesForAdded` -/

/-- Characterization of the filtered descendant list walked by
`UpdatePackagesForAdded`. -/
theorem mem_updateDescList {m : Mempool} {P : List MemEntry} {it d : MemEntry}
    (hitP : it ∈ P)
    (hd : d ∈ (CalculateDescendants m it).filter (fun x => ¬ hasId P x.txid)) :
    d ∈ m.entries ∧ it.txid ∈ d.anc ∧ hasId P d.txid = false := by
  rw [List.mem_filter] at hd
  obtain ⟨hdesc, hnP⟩ := hd
  have hnP2 : hasId P d.txid = false := by
    cases h : hasId P d.txid
    · rfl
    · rw [h] at hnP
      simp at hnP
  unfold CalculateDescendants at hdesc
  rw [List.mem_filter] at hdesc
  obtain ⟨hdm, hpred⟩ := hdesc
  refine ⟨hdm, ?_, hnP2⟩
  rw [Bool.or_eq_true] at hpred
  rcases hpred with h | h
  · exfalso
    have : hasId P d.txid = true :=
      (hasId_iff _ _).mpr ⟨it, hitP, (beq_iff_eq.mp h).symm⟩
    rw [this] at hnP2
    cases hnP2
  · simpa using h

theorem updateDescList_mem_of {m : Mempool} {P : List MemEntry} {it d : MemEntry}
    (hdm : d ∈ m.entries) (hanc : it.txid ∈ d.anc) (hnP : hasId P d.txid = false) :
    d ∈ (CalculateDescendants m it).filter (fun x => ¬ hasId P x.txid) := by
  rw [List.mem_filter]
  constructor
  · unfold CalculateDescendants
    rw [List.mem_filter]
    refine ⟨hdm, ?_⟩
    rw [Bool.or_eq_true]
    right
    simpa using hanc
  · rw [hnP]
    simp

theorem updateDescList_ids_nodup {m : Mempool} (hWF : m.WF) (P : List MemEntry)
    (it : MemEntry) :
    (((CalculateDescendants m it).filter (fun x => ¬ hasId P x.txid)).map
      MemEntry.txid).Nodup := by
  apply hWF.nodup.sublist
  apply List.Sublist.map
  exact ((List.filter_sublist _).trans (List.filter_sublist _))

/-- Walking one parent's descendant list preserves the residual domination:
entries whose record is updated (or freshly inserted) become bounded with
the parent counted as included. -/
theorem inner_fold_bound {m : Mempool} (hWF : m.WF) (P L : List MemEntry)
    (X : List MemEntry) (it : MemEntry) (hit : it ∈ m.entries) (hitP : it ∈ P)
    (hitX : hasId X it.txid = false)
    (hPL : ∀ e ∈ P, hasId L e.txid = false)
    (hLsub : ∀ e ∈ L, e ∈ m.entries)
    (hLclosed : ∀ e ∈ L, ∀ t ∈ e.anc, hasId L t = true) :
    ∀ (rem : List MemEntry),
      (∀ d ∈ rem, d ∈ m.entries ∧ it.txid ∈ d.anc ∧ hasId P d.txid = false) →
      (rem.map MemEntry.txid).Nodup →
      ∀ (acc : List ModEntry),
      (∀ me ∈ acc,
        me.entry ∈ m.entries ∧ hasId P me.entry.txid = false ∧
        hasId L me.entry.txid = false ∧
        (hasId rem me.entry.txid = true →
          (remainSizeN m X me.entry : Int) ≤ me.nSizeWithAncestors ∧
          (remainSigN m X me.entry : Int) ≤ me.nSigOpCostWithAncestors) ∧
        (hasId rem me.entry.txid = false →
          (remainSizeN m (X ++ [it]) me.entry : Int) ≤ me.nSizeWithAncestors ∧
          (remainSigN m (X ++ [it]) me.entry : Int) ≤ me.nSigOpCostWithAncestors)) →
      ∀ me ∈ rem.foldl (applyDesc it) acc,
        me.entry ∈ m.entries ∧ hasId P me.entry.txid = false ∧
        hasId L me.entry.txid = false ∧
        (remainSizeN m (X ++ [it]) me.entry : Int) ≤ me.nSizeWithAncestors ∧
        (remainSigN m (X ++ [it]) me.entry : Int) ≤ me.nSigOpCostWithAncestors := by
  intro rem
  induction rem with
  | nil =>
    intro _ _ acc hacc me hme
    obtain ⟨h1, h2, h3, _, h5⟩ := hacc me hme
    exact ⟨h1, h2, h3, (h5 rfl).1, (h5 rfl).2⟩
  | cons d tail ih =>
    intro hrem hnd acc hacc
    simp only [List.foldl_cons]
    obtain ⟨hdm, hdanc, hdP⟩ := hrem d (List.mem_cons_self d tail)
    have hndtail : (tail.map MemEntry.txid).Nodup := by
      rw [List.map_cons, List.nodup_cons] at hnd
      exact hnd.2
    have hdnotail : hasId tail d.txid = false := by
      rw [List.map_cons, List.nodup_cons] at hnd
      rw [hasId_false_iff]
      intro e he hc
      exact hnd.1 (hc ▸ List.mem_map_of_mem MemEntry.txid he)
    apply ih (fun x hx => hrem x (List.mem_cons_of_mem d hx)) hndtail (applyDesc it acc d)
    intro me hme
    have hLd : hasId L d.txid = false := by
      cases hLd : hasId L d.txid
      · rfl
      · exfalso
        obtain ⟨c, hcL, hcid⟩ := (hasId_iff _ _).mp hLd
        have hcd : c = d := entries_id_inj hWF (hLsub c hcL) hdm hcid
        have := hLclosed c hcL it.txid (hcd ▸ hdanc)
        rw [hPL it hitP] at this
        cases this
    unfold applyDesc at hme
    by_cases hmod : hasModId acc d.txid = true
    · rw [if_pos hmod] at hme
      rw [List.mem_map] at hme
      obtain ⟨me0, hme0, hup⟩ := hme
      obtain ⟨g1, g2, g3, g4, g5⟩ := hacc me0 hme0
      by_cases hid : me0.entry.txid = d.txid
      · rw [if_pos hid] at hup
        subst hup
        have hent : me0.entry = d := entries_id_inj hWF g1 hdm hid
        have hpend : hasId (d :: tail) me0.entry.txid = true := by
          simp [hasId, hid]
        obtain ⟨hb1, hb2⟩ := g4 hpend
        have hancme : it.txid ∈ me0.entry.anc := by
          rw [hent]
          exact hdanc
        have hsz := remainSizeN_snoc hWF g1 hit hancme X hitX
        have hsg := remainSigN_snoc hWF g1 hit hancme X hitX
        simp only [update_for_parent_inclusion]
        refine ⟨g1, g2, g3, ?_, ?_⟩
        · intro hpt
          rw [hid, hdnotail] at hpt
          cases hpt
        · intro _
          constructor
          · omega
          · omega
      · rw [if_neg hid] at hup
        subst hup
        have hsame : hasId (d :: tail) me0.entry.txid = hasId tail me0.entry.txid := by
          simp only [hasId, List.any_cons]
          have hb : (d.txid == me0.entry.txid) = false :=
            beq_eq_false_iff_ne.mpr (fun h => hid h.symm)
          rw [hb]
          simp
        rw [hsame] at g4 g5
        exact ⟨g1, g2, g3, g4, g5⟩
    · rw [if_neg hmod] at hme
      rcases List.mem_cons.mp hme with rfl | hme2
      · refine ⟨hdm, hdP, hLd, ?_, ?_⟩
        · intro hpt
          have hpt2 : hasId tail d.txid = true := hpt
          rw [hdnotail] at hpt2
          cases hpt2
        · intro _
          have hsz := remainSizeN_snoc hWF hdm hit hdanc X hitX
          have hsg := remainSigN_snoc hWF hdm hit hdanc X hitX
          have hlt := remainSizeN_le_total hWF hdm X
          have hlg := remainSigN_le_total hWF hdm X
          have hgoal1 : (remainSizeN m (X ++ [it]) d : Int)
              ≤ (d.sizeWithAncestors : Int) - (it.txSize : Int) := by omega
          have hgoal2 : (remainSigN m (X ++ [it]) d : Int)
              ≤ (d.sigOpCostWithAncestors : Int) - (it.sigOpCost : Int) := by omega
          exact ⟨hgoal1, hgoal2⟩
      · obtain ⟨g1, g2, g3, g4, g5⟩ := hacc me hme2
        have hidne : me.entry.txid ≠ d.txid := by
          intro h
          apply hmod
          unfold hasModId
          rw [List.any_eq_true]
          exact ⟨me, hme2, by rw [beq_iff_eq]; exact h⟩
        have hsame : hasId (d :: tail) me.entry.txid = hasId tail me.entry.txid := by
          simp only [hasId, List.any_cons]
          have hb : (d.txid == me.entry.txid) = false :=
            beq_eq_false_iff_ne.mpr (fun h => hidne h.symm)
          rw [hb]
          simp
        rw [hsame] at g4 g5
        exact ⟨g1, g2, g3, g4, g5⟩

/-- Processing a suffix of newly added parents keeps every overlay residual
dominating its remaining package, with all processed parents counted as
included. -/
theorem outer_fold_bound {m : Mempool} (hWF : m.WF) (P L : List MemEntry)
    (hP : ∀ e ∈ P, e ∈ m.entries)
    (hPL : ∀ e ∈ P, hasId L e.txid = false)
    (hLsub : ∀ e ∈ L, e ∈ m.entries)
    (hLclosed : ∀ e ∈ L, ∀ t ∈ e.anc, hasId L t = true) :
    ∀ (Ps : List MemEntry), (∀ e ∈ Ps, e ∈ P) → (Ps.map MemEntry.txid).Nodup →
    ∀ (X : List MemEntry), (∀ e ∈ Ps, hasId X e.txid = false) →
    ∀ (acc : List ModEntry),
      (∀ me ∈ acc,
        me.entry ∈ m.entries ∧ hasId P me.entry.txid = false ∧
        hasId L me.entry.txid = false ∧
        (remainSizeN m X me.entry : Int) ≤ me.nSizeWithAncestors ∧
        (remainSigN m X me.entry : Int) ≤ me.nSigOpCostWithAncestors) →
      ∀ me ∈ Ps.foldl (fun acc2 it =>
          ((CalculateDescendants m it).filter (fun d => ¬ hasId P d.txid)).foldl
            (applyDesc it) acc2) acc,
        me.entry ∈ m.entries ∧ hasId P me.entry.txid = false ∧
        hasId L me.entry.txid = false ∧
        (remainSizeN m (X ++ Ps) me.entry : Int) ≤ me.nSizeWithAncestors ∧
        (remainSigN m (X ++ Ps) me.entry : Int) ≤ me.nSigOpCostWithAncestors := by
  intro Ps
  induction Ps with
  | nil =>
    intro _ _ X _ acc hacc me hme
    simp only [List.foldl_nil] at hme
    obtain ⟨h1, h2, h3, h4, h5⟩ := hacc me hme
    rw [List.append_nil]
    exact ⟨h1, h2, h3, h4, h5⟩
  | cons it Ps2 ih =>
    intro hPs hnd X hX acc hacc
    simp only [List.foldl_cons]
    have hitP : it ∈ P := hPs it (List.mem_cons_self it Ps2)
    have hit : it ∈ m.entries := hP it hitP
    have hitX : hasId X it.txid = false := hX it (List.mem_cons_self it Ps2)
    have hnd2 : (Ps2.map MemEntry.txid).Nodup := by
      rw [List.map_cons, List.nodup_cons] at hnd
      exact hnd.2
    have hitPs2 : it.txid ∉ Ps2.map MemEntry.txid := by
      rw [List.map_cons, List.nodup_cons] at hnd
      exact hnd.1
    have hacc2 : ∀ me ∈ acc,
        me.entry ∈ m.entries ∧ hasId P me.entry.txid = false ∧
        hasId L me.entry.txid = false ∧
        (hasId ((CalculateDescendants m it).filter (fun d => ¬ hasId P d.txid))
            me.entry.txid = true →
          (remainSizeN m X me.entry : Int) ≤ me.nSizeWithAncestors ∧
          (remainSigN m X me.entry : Int) ≤ me.nSigOpCostWithAncestors) ∧
        (hasId ((CalculateDescendants m it).filter (fun d => ¬ hasId P d.txid))
            me.entry.txid = false →
          (remainSizeN m (X ++ [it]) me.entry : Int) ≤ me.nSizeWithAncestors ∧
          (remainSigN m (X ++ [it]) me.entry : Int) ≤ me.nSigOpCostWithAncestors) := by
      intro me hme
      obtain ⟨h1, h2, h3, h4, h5⟩ := hacc me hme
      refine ⟨h1, h2, h3, fun _ => ⟨h4, h5⟩, ?_⟩
      intro hnp
      by_cases hanc : it.txid ∈ me.entry.anc
      · exfalso
        have hmemD := updateDescList_mem_of (P := P) h1 hanc h2
        have : hasId ((CalculateDescendants m it).filter (fun d => ¬ hasId P d.txid))
            me.entry.txid = true := (hasId_iff _ _).mpr ⟨me.entry, hmemD, rfl⟩
        rw [this] at hnp
        cases hnp
      · rw [remainSizeN_snoc_eq m hanc X, remainSigN_snoc_eq m hanc X]
        exact ⟨h4, h5⟩
    have hinner := inner_fold_bound hWF P L X it hit hitP hitX hPL hLsub hLclosed
      ((CalculateDescendants m it).filter (fun d => ¬ hasId P d.txid))
      (fun d hd => mem_updateDescList hitP hd)
      (updateDescList_ids_nodup hWF P it)
      acc hacc2
    have hX2 : ∀ e ∈ Ps2, hasId (X ++ [it]) e.txid = false := by
      intro e he
      rw [hasId_append, hX e (List.mem_cons_of_mem it he)]
      have : (it.txid == e.txid) = false := by
        rw [beq_eq_false_iff_ne]
        intro hc
        exact hitPs2 (hc ▸ List.mem_map_of_mem MemEntry.txid he)
      simp [hasId, this]
    have hres := ih (fun e he => hPs e (List.mem_cons_of_mem it he)) hnd2
      (X ++ [it]) hX2 _ hinner
    intro me hme
    obtain ⟨h1, h2, h3, h4, h5⟩ := hres me hme
    rw [List.append_assoc, List.singleton_append] at h4 h5
    exact ⟨h1, h2, h3, h4, h5⟩

/-- `UpdatePackagesForAdded` keeps every overlay residual dominating the
remaining package of its entry once the freshly committed package counts as
included. -/
theorem UpdatePackagesForAdded_bound {m : Mempool} (hWF : m.WF) (P L : List MemEntry)
    (hP : ∀ e ∈ P, e ∈ m.entries) (hPnd : (P.map MemEntry.txid).Nodup)
    (hPL : ∀ e ∈ P, hasId L e.txid = false)
    (hLsub : ∀ e ∈ L, e ∈ m.entries)
    (hLclosed : ∀ e ∈ L, ∀ t ∈ e.anc, hasId L t = true)
    (mmt : List ModEntry)
    (hmmt : ∀ me ∈ mmt,
      me.entry ∈ m.entries ∧ hasId P me.entry.txid = false ∧
      hasId L me.entry.txid = false ∧
      (remainSizeN m L me.entry : Int) ≤ me.nSizeWithAncestors ∧
      (remainSigN m L me.entry : Int) ≤ me.nSigOpCostWithAncestors) :
    ∀ me ∈ UpdatePackagesForAdded m P mmt,
      me.entry ∈ m.entries ∧ hasId P me.entry.txid = false ∧
      hasId L me.entry.txid = false ∧
      (remainSizeN m (L ++ P) me.entry : Int) ≤ me.nSizeWithAncestors ∧
      (remainSigN m (L ++ P) me.entry : Int) ≤ me.nSigOpCostWithAncestors := by
  unfold UpdatePackagesForAdded
  exact outer_fold_bound hWF P L hP hPL hLsub hLclosed P (fun e he => he) hPnd L hPL
    mmt hmmt

/-! ### Preservation of the selection invariant -/

theorem SelInv_frame {m : Mempool} {p : AsmParams} {s : SelState} (hs : SelInv m p s)
    (rest2 : List MemEntry) (hrest2 : ∀ e ∈ rest2, e ∈ m.entries)
    (mmt2 : List ModEntry) (hmmt2 : mmt2.Sublist s.mapModifiedTx)
    (failed2 : List Nat) (ncf2 : Nat) :
    SelInv m p ⟨rest2, mmt2, failed2, ncf2, s.inBlockL, s.feesPushed, s.sigOpsPushed,
      s.nBlockWeight, s.nBlockSigOpsCost, s.nBlockTx, s.nFees⟩ :=
  ⟨hs.weightLe, hs.sigopsLe, hrest2, hs.inBlockSub, hs.inBlockNodup, hs.topo,
    fun me hme => hs.mmtMem me (hmmt2.mem hme),
    fun me hme => hs.mmtNotIn me (hmmt2.mem hme),
    fun me hme => hs.mmtSize me (hmmt2.mem hme),
    fun me hme => hs.mmtSig me (hmmt2.mem hme)⟩

theorem modBest_aux_mem (l : List ModEntry) :
    ∀ (acc : Option ModEntry) (me : ModEntry),
      l.foldl (fun a x =>
        match a with
        | none => some x
        | some y => if CompareTxMemPoolEntryByAncestorFee x y then some x else some y) acc
        = some me →
      me ∈ l ∨ acc = some me := by
  induction l with
  | nil => intro acc me h; exact Or.inr h
  | cons x tl ih =>
    intro acc me h
    rw [List.foldl_cons] at h
    rcases ih _ me h with hmem | hacc
    · exact Or.inl (List.mem_cons_of_mem x hmem)
    · match acc, hacc with
      | none, hacc =>
        rw [Option.some.injEq] at hacc
        exact Or.inl (hacc ▸ List.mem_cons_self x tl)
      | some y, hacc =>
        dsimp only at hacc
        split at hacc
        · rw [Option.some.injEq] at hacc
          exact Or.inl (hacc ▸ List.mem_cons_self x tl)
        · exact Or.inr hacc

theorem modBest_mem {l : List ModEntry} {me : ModEntry} (h : modBest l = some me) :
    me ∈ l := by
  rcases modBest_aux_mem l none me h with hmem | hacc
  · exact hmem
  · cases hacc

/-- Committing a package that passed `TestPackage` preserves the selection
invariant: the counters stay within the limits, the block order stays
topologically sound, and the overlay update keeps residual domination. -/
theorem commit_inv {m : Mempool} {p : AsmParams} (hWF : m.WF) {s : SelState}
    (hs : SelInv m p s) (iter : MemEntry) (hiter : iter ∈ m.entries)
    (hnotin : hasId s.inBlockL iter.txid = false)
    (pkgSize pkgSig : Int)
    (hszb : (remainSizeN m s.inBlockL iter : Int) ≤ pkgSize)
    (hsgb : (remainSigN m s.inBlockL iter : Int) ≤ pkgSig)
    (htp : TestPackage p s pkgSize pkgSig = true) :
    SelInv m p
      { (SortForBlock (candidatePackage m s iter)).foldl commitOne
          { s with nConsecutiveFailed := 0 } with
        mapModifiedTx := UpdatePackagesForAdded m (candidatePackage m s iter)
          (((SortForBlock (candidatePackage m s iter)).foldl commitOne
            { s with nConsecutiveFailed := 0 }).mapModifiedTx) } := by
  have hfields := foldl_commitOne_fields (SortForBlock (candidatePackage m s iter))
    { s with nConsecutiveFailed := 0 }
  obtain ⟨f1, f2, f3, f4, f5, f6, f7, f8, f9, f10, f11⟩ := hfields
  have hperm : List.Perm (SortForBlock (candidatePackage m s iter))
      (candidatePackage m s iter) := List.perm_insertionSort _ _
  have hpkgnd := candidatePackage_ids_nodup hWF (s := s) hiter
  have hSnd : ((SortForBlock (candidatePackage m s iter)).map MemEntry.txid).Nodup :=
    ((hperm.map MemEntry.txid).nodup_iff).mpr hpkgnd
  have hSsub : ∀ e ∈ SortForBlock (candidatePackage m s iter), e ∈ m.entries :=
    fun e he => candidatePackage_sub hiter e (hperm.mem_iff.mp he)
  have hSnotinL : ∀ e ∈ SortForBlock (candidatePackage m s iter),
      hasId s.inBlockL e.txid = false :=
    fun e he => candidatePackage_notin hnotin e (hperm.mem_iff.mp he)
  have hidSpkg : ∀ id, hasId (SortForBlock (candidatePackage m s iter)) id
      = hasId (candidatePackage m s iter) id := hasId_perm hperm
  rw [TestPackage, Bool.and_eq_true, decide_eq_true_eq, decide_eq_true_eq] at htp
  obtain ⟨htpW, htpS⟩ := htp
  have hwsumN : ((SortForBlock (candidatePackage m s iter)).map MemEntry.txWeight).sum
      ≤ WITNESS_SCALE_FACTOR * remainSizeN m s.inBlockL iter := by
    have h1 : ((SortForBlock (candidatePackage m s iter)).map MemEntry.txWeight).sum
        = ((candidatePackage m s iter).map MemEntry.txWeight).sum :=
      (hperm.map MemEntry.txWeight).sum_eq
    have h2 : ((candidatePackage m s iter).map MemEntry.txWeight).sum
        ≤ ((candidatePackage m s iter).map
            (fun t => WITNESS_SCALE_FACTOR * t.txSize)).sum := by
      apply List.sum_le_sum
      intro t ht
      exact hWF.weightLe t (candidatePackage_sub hiter t ht)
    have h3 : ((candidatePackage m s iter).map
        (fun t => WITNESS_SCALE_FACTOR * t.txSize)).sum
        = WITNESS_SCALE_FACTOR * ((candidatePackage m s iter).map MemEntry.txSize).sum := by
      rw [← List.sum_map_mul_left]
    calc ((SortForBlock (candidatePackage m s iter)).map MemEntry.txWeight).sum
        = ((candidatePackage m s iter).map MemEntry.txWeight).sum := h1
      _ ≤ ((candidatePackage m s iter).map (fun t => WITNESS_SCALE_FACTOR * t.txSize)).sum :=
          h2
      _ = WITNESS_SCALE_FACTOR * ((candidatePackage m s iter).map MemEntry.txSize).sum := h3
      _ = WITNESS_SCALE_FACTOR * remainSizeN m s.inBlockL iter := by
          rw [candidatePackage_size_sum]
  have hssumN : ((SortForBlock (candidatePackage m s iter)).map MemEntry.sigOpCost).sum
      = remainSigN m s.inBlockL iter := by
    rw [(hperm.map MemEntry.sigOpCost).sum_eq, candidatePackage_sig_sum]
  refine ⟨?_, ?_, ?_, ?_, ?_, ?_, ?_, ?_, ?_, ?_⟩
  · show ((SortForBlock (candidatePackage m s iter)).foldl commitOne
      { s with nConsecutiveFailed := 0 }).nBlockWeight ≤ p.nBlockMaxWeight
    rw [f4]
    show s.nBlockWeight + _ ≤ _
    unfold WITNESS_SCALE_FACTOR at hwsumN htpW
    omega
  · show ((SortForBlock (candidatePackage m s iter)).foldl commitOne
      { s with nConsecutiveFailed := 0 }).nBlockSigOpsCost ≤ MAX_BLOCK_SIGOPS_COST
    rw [f5]
    show s.nBlockSigOpsCost + _ ≤ _
    unfold MAX_BLOCK_SIGOPS_COST at htpS ⊢
    omega
  · show ∀ e ∈ ((SortForBlock (candidatePackage m s iter)).foldl commitOne
      { s with nConsecutiveFailed := 0 }).rest, e ∈ m.entries
    rw [f8]
    exact hs.restSub
  · show ∀ e ∈ ((SortForBlock (candidatePackage m s iter)).foldl commitOne
      { s with nConsecutiveFailed := 0 }).inBlockL, e ∈ m.entries
    rw [f1]
    intro e he
    rcases List.mem_append.mp he with h | h
    · exact hs.inBlockSub e h
    · exact hSsub e h
  · show (((SortForBlock (candidatePackage m s iter)).foldl commitOne
      { s with nConsecutiveFailed := 0 }).inBlockL.map MemEntry.txid).Nodup
    rw [f1, List.map_append, List.nodup_append]
    refine ⟨hs.inBlockNodup, hSnd, ?_⟩
    intro a ha hb
    rw [List.mem_map] at ha hb
    obtain ⟨c, hcL, hcid⟩ := ha
    obtain ⟨e, heS, heid⟩ := hb
    have : hasId s.inBlockL e.txid = true := (hasId_iff _ _).mpr ⟨c, hcL, by omega⟩
    rw [hSnotinL e heS] at this
    cases this
  · show TopoOrd ((SortForBlock (candidatePackage m s iter)).foldl commitOne
      { s with nConsecutiveFailed := 0 }).inBlockL
    rw [f1]
    exact TopoOrd_append hs.topo (sorted_package_anc hWF hiter)
  · intro me hme
    have hup := UpdatePackagesForAdded_bound hWF (candidatePackage m s iter) s.inBlockL
      (candidatePackage_sub hiter) hpkgnd (candidatePackage_notin hnotin)
      hs.inBlockSub (TopoOrd_closure hs.topo) _ ?_ me hme
    · exact hup.1
    · intro me2 hme2
      rw [f11, List.mem_filter] at hme2
      obtain ⟨hmem2, hflt2⟩ := hme2
      refine ⟨hs.mmtMem me2 hmem2, ?_, hs.mmtNotIn me2 hmem2,
        hs.mmtSize me2 hmem2, hs.mmtSig me2 hmem2⟩
      rw [← hidSpkg]
      cases h : hasId (SortForBlock (candidatePackage m s iter)) me2.entry.txid
      · rfl
      · rw [h] at hflt2
        cases hflt2
  · intro me hme
    have hup := UpdatePackagesForAdded_bound hWF (candidatePackage m s iter) s.inBlockL
      (candidatePackage_sub hiter) hpkgnd (candidatePackage_notin hnotin)
      hs.inBlockSub (TopoOrd_closure hs.topo) _ ?_ me hme
    · show hasId ((SortForBlock (candidatePackage m s iter)).foldl commitOne
        { s with nConsecutiveFailed := 0 }).inBlockL me.entry.txid = false
      rw [f1, hasId_append, hup.2.2.1]
      rw [← hidSpkg] at hup
      rw [hup.2.1]
      rfl
    · intro me2 hme2
      rw [f11, List.mem_filter] at hme2
      obtain ⟨hmem2, hflt2⟩ := hme2
      refine ⟨hs.mmtMem me2 hmem2, ?_, hs.mmtNotIn me2 hmem2,
        hs.mmtSize me2 hmem2, hs.mmtSig me2 hmem2⟩
      rw [← hidSpkg]
      cases h : hasId (SortForBlock (candidatePackage m s iter)) me2.entry.txid
      · rfl
      · rw [h] at hflt2
        cases hflt2
  · intro me hme
    have hup := UpdatePackagesForAdded_bound hWF (candidatePackage m s iter) s.inBlockL
      (candidatePackage_sub hiter) hpkgnd (candidatePackage_notin hnotin)
      hs.inBlockSub (TopoOrd_closure hs.topo) _ ?_ me hme
    · have hcongr : remainSizeN m (s.inBlockL ++ candidatePackage m s iter) me.entry
          = remainSizeN m (((SortForBlock (candidatePackage m s iter)).foldl commitOne
            { s with nConsecutiveFailed := 0 }).inBlockL) me.entry := by
        apply remainSizeN_congr
        intro id
        rw [f1, hasId_append, hasId_append, hidSpkg]
      rw [← hcongr]
      exact hup.2.2.2.1
    · intro me2 hme2
      rw [f11, List.mem_filter] at hme2
      obtain ⟨hmem2, hflt2⟩ := hme2
      refine ⟨hs.mmtMem me2 hmem2, ?_, hs.mmtNotIn me2 hmem2,
        hs.mmtSize me2 hmem2, hs.mmtSig me2 hmem2⟩
      rw [← hidSpkg]
      cases h : hasId (SortForBlock (candidatePackage m s iter)) me2.entry.txid
      · rfl
      · rw [h] at hflt2
        cases hflt2
  · intro me hme
    have hup := UpdatePackagesForAdded_bound hWF (candidatePackage m s iter) s.inBlockL
      (candidatePackage_sub hiter) hpkgnd (candidatePackage_notin hnotin)
      hs.inBlockSub (TopoOrd_closure hs.topo) _ ?_ me hme
    · have hcongr : remainSigN m (s.inBlockL ++ candidatePackage m s iter) me.entry
          = remainSigN m (((SortForBlock (candidatePackage m s iter)).foldl commitOne
            { s with nConsecutiveFailed := 0 }).inBlockL) me.entry := by
        apply remainSigN_congr
        intro id
        rw [f1, hasId_append, hasId_append, hidSpkg]
      rw [← hcongr]
      exact hup.2.2.2.2
    · intro me2 hme2
      rw [f11, List.mem_filter] at hme2
      obtain ⟨hmem2, hflt2⟩ := hme2
      refine ⟨hs.mmtMem me2 hmem2, ?_, hs.mmtNotIn me2 hmem2,
        hs.mmtSize me2 hmem2, hs.mmtSig me2 hmem2⟩
      rw [← hidSpkg]
      cases h : hasId (SortForBlock (candidatePackage m s iter)) me2.entry.txid
      · rfl
      · rw [h] at hflt2
        cases hflt2

theorem evalCandidate_inv {m : Mempool} {p : AsmParams} (hWF : m.WF) (iter : MemEntry)
    (b : Bool) (sz fe sg : Int) (s : SelState) (hs : SelInv m p s)
    (hiter : iter ∈ m.entries) (hnotin : hasId s.inBlockL iter.txid = false)
    (hszb : (remainSizeN m s.inBlockL iter : Int) ≤ sz)
    (hsgb : (remainSigN m s.inBlockL iter : Int) ≤ sg) :
    SelInv m p (evalCandidate m p iter b sz fe sg s).state := by
  have hmark : SelInv m p (markFailed s iter b) := by
    unfold markFailed
    split
    · exact SelInv_frame hs s.rest hs.restSub _ (List.filter_sublist _) _ _
    · exact hs
  unfold evalCandidate
  split
  · exact hs
  · split
    · dsimp only
      split
      · exact SelInv_frame hmark _ hmark.restSub _ (List.Sublist.refl _) _ _
      · exact SelInv_frame hmark _ hmark.restSub _ (List.Sublist.refl _) _ _
    · dsimp only
      split
      · exact hmark
      · rename_i htest hfin
        have htp : TestPackage p s sz sg = true := by
          by_cases h : TestPackage p s sz sg = true
          · exact h
          · exact absurd h htest
        exact commit_inv hWF hs iter hiter hnotin sz sg hszb hsgb htp

theorem addPackageTxsStep_inv {m : Mempool} {p : AsmParams} (hWF : m.WF) (s : SelState)
    (hs : SelInv m p s) : SelInv m p (addPackageTxsStep m p s).state := by
  unfold addPackageTxsStep
  cases hr : s.rest with
  | nil =>
    cases hmb : modBest s.mapModifiedTx with
    | none => exact hs
    | some me =>
      have hmem : me ∈ s.mapModifiedTx := modBest_mem hmb
      exact evalCandidate_inv hWF me.entry true _ _ _ s hs (hs.mmtMem me hmem)
        (hs.mmtNotIn me hmem) (hs.mmtSize me hmem) (hs.mmtSig me hmem)
  | cons e tl =>
    have hem : e ∈ m.entries := hs.restSub e (by rw [hr]; exact List.mem_cons_self e tl)
    have hetl : ∀ x ∈ tl, x ∈ m.entries :=
      fun x hx => hs.restSub x (by rw [hr]; exact List.mem_cons_of_mem e hx)
    have hstl : SelInv m p ⟨tl, s.mapModifiedTx, s.failedTx, s.nConsecutiveFailed,
        s.inBlockL, s.feesPushed, s.sigOpsPushed, s.nBlockWeight, s.nBlockSigOpsCost,
        s.nBlockTx, s.nFees⟩ :=
      SelInv_frame hs tl hetl _ (List.Sublist.refl _) _ _
    by_cases hsk : SkipMapTxEntry s e
    · simp only [hsk, if_true]
      exact hstl
    · simp only [hsk, if_false]
      have hnotinE : hasId s.inBlockL e.txid = false := by
        unfold SkipMapTxEntry at hsk
        rw [Bool.not_eq_true] at hsk
        rw [Bool.or_eq_false_iff, Bool.or_eq_false_iff] at hsk
        exact hsk.1.2
      have hsize : (remainSizeN m s.inBlockL e : Int) ≤ (e.sizeWithAncestors : Int) := by
        have := remainSizeN_le_total hWF hem s.inBlockL
        omega
      have hsig : (remainSigN m s.inBlockL e : Int) ≤ (e.sigOpCostWithAncestors : Int) := by
        have := remainSigN_le_total hWF hem s.inBlockL
        omega
      cases hmb : modBest s.mapModifiedTx with
      | none =>
        exact evalCandidate_inv hWF e false _ _ _ _ hstl hem hnotinE hsize hsig
      | some me =>
        by_cases hcmp : CompareTxMemPoolEntryByAncestorFee me (CTxMemPoolModifiedEntry e)
        · simp only [hcmp, if_true]
          have hmem : me ∈ s.mapModifiedTx := modBest_mem hmb
          exact evalCandidate_inv hWF me.entry true _ _ _ s hs (hs.mmtMem me hmem)
            (hs.mmtNotIn me hmem) (hs.mmtSize me hmem) (hs.mmtSig me hmem)
        · simp only [hcmp, if_false]
          exact evalCandidate_inv hWF e false _ _ _ _ hstl hem hnotinE hsize hsig

theorem addPackageTxsGo_inv {m : Mempool} {p : AsmParams} (hWF : m.WF) :
    ∀ (fuel : Nat) (s : SelState), SelInv m p s → SelInv m p (addPackageTxsGo m p fuel s) := by
  intro fuel
  induction fuel with
  | zero => intro s hs; exact hs
  | succ f ih =>
    intro s hs
    have hstep := addPackageTxsStep_inv hWF s hs
    unfold addPackageTxsGo
    cases hstepeq : addPackageTxsStep m p s with
    | done s1 => rw [hstepeq] at hstep; exact hstep
    | more s1 => rw [hstepeq] at hstep; exact ih s1 hstep

theorem initSelState_inv {m : Mempool} {p : AsmParams} (hmax : 4000 ≤ p.nBlockMaxWeight) :
    SelInv m p (initSelState m) := by
  refine ⟨hmax, by show (400 : Nat) ≤ MAX_BLOCK_SIGOPS_COST; decide, fun e he => he,
    fun e he => absurd he (by simp [initSelState]), by simp [initSelState], ?_,
    ?_, ?_, ?_, ?_⟩
  · intro i
    exact absurd i.isLt (by simp [initSelState])
  all_goals
    intro me hme
    exact absurd hme (by simp [initSelState, UpdatePackagesForAdded])

theorem addPackageTxs_inv {m : Mempool} {p : AsmParams} (hWF : m.WF)
    (hmax : 4000 ≤ p.nBlockMaxWeight) (fuel : Nat) :
    SelInv m p (addPackageTxs m p fuel) :=
  addPackageTxsGo_inv hWF fuel (initSelState m) (initSelState_inv hmax)

/-! ### Topological order of the assembled template -/

theorem spendsB_coinbase_left (t : Nat) (u : TTx) : (TTx.coinbase t).spendsB u = false := by
  cases u <;> rfl

theorem spendsB_coinstake_left (t : Nat) (u : TTx) : (TTx.coinstake t).spendsB u = false := by
  cases u <;> rfl

theorem spendsB_mem_notstake (a : MemEntry) (t : Nat) :
    (TTx.mem a).spendsB (TTx.coinbase t) = false ∧
    (TTx.mem a).spendsB (TTx.coinstake t) = false := ⟨rfl, rfl⟩

/-- Core of the topological-order claim: in a list made of non-mempool
transactions (coinbase, coinstake) followed by a topologically ordered,
duplicate-free block of mempool transactions, no transaction spends a later
one. -/
theorem template_topo_core (m : Mempool) (hWF : m.WF) (blk : List MemEntry)
    (hsub : ∀ e ∈ blk, e ∈ m.entries) (hnd : (blk.map MemEntry.txid).Nodup)
    (htopo : TopoOrd blk) (pre : List TTx)
    (hpre : ∀ t ∈ pre, ∀ e : MemEntry, t ≠ TTx.mem e) :
    ∀ (i j : Fin (pre ++ blk.map TTx.mem).length), i.val < j.val →
      TTx.spendsB ((pre ++ blk.map TTx.mem).get i) ((pre ++ blk.map TTx.mem).get j)
        = false := by
  rintro ⟨iv, hiv⟩ ⟨jv, hjv⟩ hij
  simp only at hij
  by_cases hi : iv < pre.length
  · have hget : (pre ++ blk.map TTx.mem).get ⟨iv, hiv⟩ = pre.get ⟨iv, hi⟩ :=
      List.get_append iv hi
    rw [hget]
    have hp := hpre (pre.get ⟨iv, hi⟩) (List.get_mem pre iv hi)
    cases hpe : pre.get ⟨iv, hi⟩ with
    | coinbase t => exact spendsB_coinbase_left t _
    | coinstake t => exact spendsB_coinstake_left t _
    | mem e => exact absurd hpe (hp e)
  · have hlen : iv < pre.length + blk.length := by
      have := hiv
      simp only [List.length_append, List.length_map] at this
      omega
    have hjlen : jv < pre.length + blk.length := by
      have := hjv
      simp only [List.length_append, List.length_map] at this
      omega
    have hile : pre.length ≤ iv := by omega
    have hjle : pre.length ≤ jv := by omega
    have hkI : iv - pre.length < (blk.map TTx.mem).length := by
      simp only [List.length_map]
      omega
    have hkJ : jv - pre.length < (blk.map TTx.mem).length := by
      simp only [List.length_map]
      omega
    have hkIb : iv - pre.length < blk.length := by
      simpa using hkI
    have hkJb : jv - pre.length < blk.length := by
      simpa using hkJ
    have hgetI : (pre ++ blk.map TTx.mem).get ⟨iv, hiv⟩
        = TTx.mem (blk.get ⟨iv - pre.length, hkIb⟩) := by
      rw [List.get_append_right pre (blk.map TTx.mem) hile]
      · simp [List.get_eq_getElem, List.getElem_map]
      · exact hkI
    have hgetJ : (pre ++ blk.map TTx.mem).get ⟨jv, hjv⟩
        = TTx.mem (blk.get ⟨jv - pre.length, hkJb⟩) := by
      rw [List.get_append_right pre (blk.map TTx.mem) hjle]
      · simp [List.get_eq_getElem, List.getElem_map]
      · exact hkJ
    rw [hgetI, hgetJ]
    show (blk.get ⟨iv - pre.length, hkIb⟩).inputs.contains
      (blk.get ⟨jv - pre.length, hkJb⟩).txid = false
    cases hcon : (blk.get ⟨iv - pre.length, hkIb⟩).inputs.contains
        (blk.get ⟨jv - pre.length, hkJb⟩).txid
    · rfl
    · exfalso
      have hin : (blk.get ⟨jv - pre.length, hkJb⟩).txid
          ∈ (blk.get ⟨iv - pre.length, hkIb⟩).inputs :=
        List.mem_of_elem_eq_true hcon
      have hanc : (blk.get ⟨jv - pre.length, hkJb⟩).txid
          ∈ (blk.get ⟨iv - pre.length, hkIb⟩).anc :=
        hWF.inputsSub _ (hsub _ (blk.get_mem _ _)) _ (hsub _ (blk.get_mem _ _)) hin
      exact htopo.not_anc_later hnd ⟨iv - pre.length, hkIb⟩ ⟨jv - pre.length, hkJb⟩
        (show iv - pre.length < jv - pre.length by omega) hanc

/-- The two-transaction fixture mempool is well-formed. -/
theorem exM_WF : exM.WF :=
  ⟨by decide, by decide, by decide, by decide, by decide, by decide, by decide, by decide,
    by decide, by decide⟩

/-- C1: the running counters are seeded with the 4000-weight / 400-sigops
coinbase reservation, stay within `nBlockMaxWeight` and
`MAX_BLOCK_SIGOPS_COST` after every number of selection-loop iterations, and
therefore the selection state of every `CreateNewBlock` call (whose
assembler clamps the configured weight to at least 4000) respects both
limits. -/
theorem C1_weight_sigops_bounds (m : Mempool) (hWF : m.WF) :
    ((initSelState m).nBlockWeight = 4000 ∧ (initSelState m).nBlockSigOpsCost = 400) ∧
    (∀ p : AsmParams, 4000 ≤ p.nBlockMaxWeight → ∀ fuel : Nat,
      (addPackageTxs m p fuel).nBlockWeight ≤ p.nBlockMaxWeight ∧
      (addPackageTxs m p fuel).nBlockSigOpsCost ≤ MAX_BLOCK_SIGOPS_COST) ∧
    (∀ (opts : BlockAssemblerOptions) (env : Env) (wallet : Option WalletModel)
        (ss : SearchState) (pcIn : Bool) (fuel : Nat) (s : SelState),
      (CreateNewBlock m (BlockAssembler.ofOptions opts) env wallet ss pcIn fuel).selState
        = some s →
      s.nBlockWeight ≤ (BlockAssembler.ofOptions opts).nBlockMaxWeight ∧
      s.nBlockSigOpsCost ≤ MAX_BLOCK_SIGOPS_COST) := by
  refine ⟨⟨rfl, rfl⟩, ?_, ?_⟩
  · intro p hp fuel
    have h := addPackageTxs_inv hWF hp fuel
    exact ⟨h.weightLe, h.sigopsLe⟩
  · intro opts env wallet ss pcIn fuel s hsel
    have hclamp : 4000 ≤ (BlockAssembler.ofOptions opts).nBlockMaxWeight :=
      le_max_left 4000 _
    unfold CreateNewBlock at hsel
    cases wallet with
    | none =>
      dsimp only at hsel
      split at hsel
      · simp only [Option.some.injEq] at hsel
        subst hsel
        have h := addPackageTxs_inv (p :=
          { nBlockMaxWeight := (BlockAssembler.ofOptions opts).nBlockMaxWeight
            blockMinFeeRate := (BlockAssembler.ofOptions opts).blockMinFeeRate
            nHeight := env.prevHeight + 1
            nLockTimeCutoff := env.medianTimePast
            fIncludeWitness := env.deploymentSegwitActive }) hWF hclamp fuel
        exact ⟨h.weightLe, h.sigopsLe⟩
      · simp only [Option.some.injEq] at hsel
        subst hsel
        have h := addPackageTxs_inv (p :=
          { nBlockMaxWeight := (BlockAssembler.ofOptions opts).nBlockMaxWeight
            blockMinFeeRate := (BlockAssembler.ofOptions opts).blockMinFeeRate
            nHeight := env.prevHeight + 1
            nLockTimeCutoff := env.medianTimePast
            fIncludeWitness := env.deploymentSegwitActive }) hWF hclamp fuel
        exact ⟨h.weightLe, h.sigopsLe⟩
    | some w =>
      dsimp only at hsel
      split at hsel
      · exact absurd hsel (by simp)
      · simp only [Option.some.injEq] at hsel
        subst hsel
        have h := addPackageTxs_inv (p :=
          { nBlockMaxWeight := (BlockAssembler.ofOptions opts).nBlockMaxWeight
            blockMinFeeRate := (BlockAssembler.ofOptions opts).blockMinFeeRate
            nHeight := env.prevHeight + 1
            nLockTimeCutoff := env.medianTimePast
            fIncludeWitness := env.deploymentSegwitActive }) hWF hclamp fuel
        exact ⟨h.weightLe, h.sigopsLe⟩

/-- C1 witness: the bounds on a concrete mempool and configuration. -/
theorem C1_weight_sigops_bounds_witness :
    (addPackageTxs exM cexP 10).nBlockWeight ≤ cexP.nBlockMaxWeight ∧
    (addPackageTxs exM cexP 10).nBlockSigOpsCost ≤ MAX_BLOCK_SIGOPS_COST :=
  (C1_weight_sigops_bounds exM exM_WF).2.1 cexP (by decide) 10

/-- C2: every template returned by `CreateNewBlock` is topologically
ordered — no transaction spends an output of a transaction appearing later
in the template's transaction list. -/
theorem C2_topological_order (m : Mempool) (hWF : m.WF) (opts : BlockAssemblerOptions)
    (env : Env) (wallet : Option WalletModel) (ss : SearchState) (pcIn : Bool)
    (fuel : Nat) (T : BlockTemplate)
    (hT : (CreateNewBlock m (BlockAssembler.ofOptions opts) env wallet ss pcIn fuel).template
      = some T) :
    ∀ i j : Fin T.txs.length, i.val < j.val →
      TTx.spendsB (T.txs.get i) (T.txs.get j) = false := by
  have hclamp : 4000 ≤ max 4000 (min (MAX_BLOCK_WEIGHT - 4000) opts.nBlockMaxWeight) :=
    le_max_left 4000 _
  unfold CreateNewBlock at hT
  cases wallet with
  | none =>
    dsimp only at hT
    split at hT
    · simp only [Option.some.injEq] at hT
      subst hT
      have hinv := addPackageTxs_inv (p :=
        { nBlockMaxWeight := (BlockAssembler.ofOptions opts).nBlockMaxWeight
          blockMinFeeRate := (BlockAssembler.ofOptions opts).blockMinFeeRate
          nHeight := env.prevHeight + 1
          nLockTimeCutoff := env.medianTimePast
          fIncludeWitness := env.deploymentSegwitActive }) hWF hclamp fuel
      exact template_topo_core m hWF _ hinv.inBlockSub hinv.inBlockNodup hinv.topo
        [TTx.coinbase env.txDefaultTime]
        (by
          intro t ht e
          rcases List.mem_cons.mp ht with rfl | ht2
          · exact fun h => TTx.noConfusion h
          · exact absurd ht2 (by simp))
    · exact absurd hT (by simp)
  | some w =>
    dsimp only at hT
    split at hT
    · exact absurd hT (by simp)
    · rename_i csTime heq
      simp only [Option.some.injEq] at hT
      subst hT
      have hinv := addPackageTxs_inv (p :=
        { nBlockMaxWeight := (BlockAssembler.ofOptions opts).nBlockMaxWeight
          blockMinFeeRate := (BlockAssembler.ofOptions opts).blockMinFeeRate
          nHeight := env.prevHeight + 1
          nLockTimeCutoff := env.medianTimePast
          fIncludeWitness := env.deploymentSegwitActive }) hWF hclamp fuel
      exact template_topo_core m hWF _ hinv.inBlockSub hinv.inBlockNodup hinv.topo
        [TTx.coinbase csTime, TTx.coinstake csTime]
        (by
          intro t ht e
          rcases List.mem_cons.mp ht with rfl | ht2
          · exact fun h => TTx.noConfusion h
          · rcases List.mem_cons.mp ht2 with rfl | ht3
            · exact fun h => TTx.noConfusion h
            · exact absurd ht3 (by simp))

/-- C2 witness: no out-of-order spend in a concrete two-transaction
template. -/
theorem C2_topological_order_witness :
    ∃ T, (CreateNewBlock exM (BlockAssembler.ofOptions ⟨0, 8000⟩) exEnv none exSS
        false 10).template = some T ∧
      ∀ i j : Fin T.txs.length, i.val < j.val →
        TTx.spendsB (T.txs.get i) (T.txs.get j) = false :=
  ⟨_, rfl, C2_topological_order exM exM_WF ⟨0, 8000⟩ exEnv none exSS false 10 _ rfl⟩
